import Mathlib

/-!
# Word-count MapReduce (`Exc_9/skeleton/mapred/map_reduce.go`)

A shallow embedding of `MapReduce.wordCountMapper`, `MapReduce.wordCountReducer`
and `MapReduce.Run`.

* Go strings are modelled by their rune sequences (`String`, `List Char`).  The
  regular expression and `strings.Fields` both decode the text into runes; an
  invalid byte decodes to U+FFFD, which is neither an ASCII letter nor kept by
  the regular expression, so nothing is lost.
* Go `int` is modelled by `Int` with explicit two's-complement wrapping at
  64 bits (`wrapInt`).
* Go maps are modelled by association lists without duplicate keys (`mapGet`,
  `mapSet`); the order of the list is not observable through `mapGet`.
* `Run` is concurrent.  It is modelled by a labelled transition system
  (`RunState`, `Action`, `step`): every action is one scheduling decision, so an
  execution is a list of actions and `exec` replays it.  The channel `kvCh` is
  unbuffered, so a send and its receipt are one action.  The critical section
  `mu.Lock(); result[out.Key] = out.Value; mu.Unlock()` is one action, since `mu`
  keeps the sections of different reducers apart and nothing else touches
  `result` before `reduceWg.Wait()` returns.  The order in which Go ranges over
  `groups` is left open: any entry not yet visited may come next.
* Theorems about `Run` quantify over all schedules; `progress` and
  `stepBound_decreases` show that no schedule is stuck before the return and
  that none is infinite.
-/

namespace Mapred

/-! ## Library functions used by the mapper -/

/-- ASCII letters: the character class `[a-zA-Z]` of the regular expression. -/
def isAsciiLetter (c : Char) : Bool :=
  (97 ≤ c.toNat && c.toNat ≤ 122) || (65 ≤ c.toNat && c.toNat ≤ 90)

/-- Scanner for `regexp.MustCompile("[^a-zA-Z]+").ReplaceAllString(text, " ")`:
every maximal run of runes outside `[a-zA-Z]` is replaced by one space.  The flag
tells whether the scanner is inside a run that has already been replaced. -/
def replaceRuns : Bool → List Char → List Char
  | _, [] => []
  | inRun, c :: cs =>
    if isAsciiLetter c then c :: replaceRuns false cs
    else if inRun then replaceRuns true cs
    else ' ' :: replaceRuns true cs

/-- Go `re.ReplaceAllString(text, " ")` for `re = [^a-zA-Z]+`. -/
def ReplaceAllString (text : List Char) : List Char :=
  replaceRuns false text

/-- Go `unicode.IsSpace`: the Latin-1 spaces and the runes with the Unicode
White_Space property. -/
def isSpace (c : Char) : Bool :=
  let n := c.toNat
  n = 0x09 || n = 0x0A || n = 0x0B || n = 0x0C || n = 0x0D || n = 0x20
    || n = 0x85 || n = 0xA0 || n = 0x1680 || (0x2000 ≤ n && n ≤ 0x200A)
    || n = 0x2028 || n = 0x2029 || n = 0x202F || n = 0x205F || n = 0x3000

/-- Scanner for `strings.Fields`: `cur` is the field being read. -/
def fieldsAux : List Char → List Char → List (List Char)
  | cur, [] => if cur.isEmpty then [] else [cur]
  | cur, c :: cs =>
    if isSpace c then
      (if cur.isEmpty then fieldsAux [] cs else cur :: fieldsAux [] cs)
    else fieldsAux (cur ++ [c]) cs

/-- Go `strings.Fields`: split around runs of white space, no empty field. -/
def Fields (s : List Char) : List (List Char) :=
  fieldsAux [] s

/-- Go `unicode.ToLower` on an ASCII rune. -/
def lowerAscii (c : Char) : Char :=
  if 65 ≤ c.toNat ∧ c.toNat ≤ 90 then Char.ofNat (c.toNat + 32) else c

/-- Go `strings.ToLower`.  An all-ASCII string is lower-cased bytewise; any other
string is mapped rune by rune through `unicode.ToLower`, whose case tables are
the parameter `unicodeToLower`. -/
def ToLower (unicodeToLower : Char → Char) (s : List Char) : List Char :=
  if s.all (fun c => decide (c.toNat < 128)) then s.map lowerAscii
  else s.map unicodeToLower

/-! ## Data model -/

/-- Go `type KeyValue struct { Key string; Value int }`. -/
structure KeyValue where
  Key : String
  Value : Int
deriving DecidableEq, Repr

/-- Two's-complement wrapping of a Go `int` (64 bits). -/
def wrapInt (x : Int) : Int :=
  (x + 2 ^ 63) % 2 ^ 64 - 2 ^ 63

/-- Go `v, ok := m[k]` on a map held as an association list. -/
def mapGet {V : Type} : List (String × V) → String → Option V
  | [], _ => none
  | (k', v) :: rest, k => if k' = k then some v else mapGet rest k

/-- Go `m[k] = v`: overwrite the entry of `k` when there is one, add one
otherwise. -/
def mapSet {V : Type} : List (String × V) → String → V → List (String × V)
  | [], k, v => [(k, v)]
  | (k', v') :: rest, k, v =>
    if k' = k then (k, v) :: rest else (k', v') :: mapSet rest k v

/-- Keys of a map. -/
def mapKeys {V : Type} (m : List (String × V)) : List String :=
  m.map Prod.fst

/-! ## Mapper and reducer -/

/-- The loop body of `wordCountMapper`: lower-case the field, skip it when it is
empty, emit `KeyValue{w, 1}` otherwise. -/
def emitField (unicodeToLower : Char → Char) (f : List Char) : Option KeyValue :=
  let w := String.mk (ToLower unicodeToLower f)
  if w = "" then none else some ⟨w, 1⟩

/-- Go `MapReduce.wordCountMapper`. -/
def wordCountMapper (unicodeToLower : Char → Char) (text : String) : List KeyValue :=
  let clean := ReplaceAllString text.data
  let fields := Fields clean
  fields.filterMap (emitField unicodeToLower)

/-- Go `MapReduce.wordCountReducer`: `sum += v` over `values`, wrapping. -/
def wordCountReducer (key : String) (values : List Int) : KeyValue :=
  ⟨key, values.foldl (fun sum v => wrapInt (sum + v)) 0⟩

/-- The body of the shuffle loop: `groups[kv.Key] = append(groups[kv.Key], kv.Value)`.
A missing key reads as the nil slice. -/
def shuffleStep (groups : List (String × List Int)) (kv : KeyValue) :
    List (String × List Int) :=
  mapSet groups kv.Key ((mapGet groups kv.Key).getD [] ++ [kv.Value])

/-- The shuffle loop run over the emissions in the order they are received. -/
def shuffle (received : List KeyValue) : List (String × List Int) :=
  received.foldl shuffleStep []

/-! ## Transition system of `Run` -/

/-- Where the goroutine that called `Run` stands. -/
inductive Phase
  | spawnMappers
  | shuffle
  | reduce
  | returned
deriving DecidableEq, Repr

/-- A mapper goroutine: it still has `kvs` to send on `kvCh`, or its deferred
`mapWg.Done()` has run. -/
inductive MapperTask
  | sending (kvs : List KeyValue)
  | finished
deriving DecidableEq, Repr

/-- Progress of a reducer goroutine. -/
inductive ReducerPc
  | spawned
  | written
  | finished
deriving DecidableEq, Repr

/-- A reducer goroutine with its arguments `k`, `v`. -/
structure ReducerTask where
  k : String
  v : List Int
  pc : ReducerPc
deriving DecidableEq, Repr

/-- State of one call of `Run`.
* `phase`: where the caller stands.
* `pendingInput`: the records the first loop has not reached yet.
* `mappers`: the mapper goroutines, in the order they were spawned.
* `mapWg`: the counter of `mapWg`.
* `closerStarted`: whether the goroutine that waits on `mapWg` and closes `kvCh`
  has been started.
* `closed`: whether `kvCh` is closed.
* `groups`: the map `groups`.
* `pendingGroups`: the entries of `groups` the range loop has not visited yet.
* `reducers`: the reducer goroutines, in the order they were spawned.
* `reduceWg`: the counter of `reduceWg`.
* `result`: the map `result`. -/
structure RunState where
  phase : Phase
  pendingInput : List String
  mappers : List MapperTask
  mapWg : Nat
  closerStarted : Bool
  closed : Bool
  groups : List (String × List Int)
  pendingGroups : List (String × List Int)
  reducers : List ReducerTask
  reduceWg : Nat
  result : List (String × Int)
deriving DecidableEq, Repr

/-- Scheduling decisions.
* `spawnMapper`: the first loop takes the next record: `mapWg.Add(1); go func(t)`.
* `startCloser`: the first loop is over: `go func() { mapWg.Wait(); close(kvCh) }()`,
  and the caller enters `for kv := range kvCh`.
* `send i`: mapper `i` hands its next emission over the unbuffered channel to the
  range loop, which runs its body.
* `mapperDone i`: mapper `i` has left its loop; its deferred `mapWg.Done()` runs.
* `close`: `mapWg.Wait()` returns in the closer, which closes `kvCh`.
* `endShuffle`: the range loop sees the closed channel and ends; the caller
  enters `for key, vals := range groups`.
* `spawnReducer j`: the range over `groups` yields entry `j` of those not yet
  visited (Go leaves the order open): `reduceWg.Add(1); go func(k, v)`.
* `reduceWrite i`: reducer `i` calls `wordCountReducer` and, holding `mu`, writes
  `result[out.Key] = out.Value`.
* `reducerDone i`: the deferred `reduceWg.Done()` of reducer `i` runs.
* `ret`: the range over `groups` is over and `reduceWg.Wait()` returns. -/
inductive Action
  | spawnMapper
  | startCloser
  | send (i : Nat)
  | mapperDone (i : Nat)
  | close
  | endShuffle
  | spawnReducer (j : Nat)
  | reduceWrite (i : Nat)
  | reducerDone (i : Nat)
  | ret
deriving DecidableEq, Repr

/-- State at the entry of `Run(input)`. -/
def init (input : List String) : RunState :=
  { phase := .spawnMappers, pendingInput := input, mappers := [], mapWg := 0,
    closerStarted := false, closed := false, groups := [], pendingGroups := [],
    reducers := [], reduceWg := 0, result := [] }

/-- One scheduling decision; `none` when the action is not enabled. -/
def step (unicodeToLower : Char → Char) (s : RunState) : Action → Option RunState
  | .spawnMapper =>
    match s.phase, s.pendingInput with
    | .spawnMappers, txt :: rest =>
      some { s with
        pendingInput := rest
        mapWg := s.mapWg + 1
        mappers := s.mappers ++ [.sending (wordCountMapper unicodeToLower txt)] }
    | _, _ => none
  | .startCloser =>
    match s.phase, s.pendingInput with
    | .spawnMappers, [] => some { s with phase := .shuffle, closerStarted := true }
    | _, _ => none
  | .send i =>
    match s.phase, s.closed, s.mappers[i]? with
    | .shuffle, false, some (.sending (kv :: rest)) =>
      some { s with
        mappers := s.mappers.set i (.sending rest)
        groups := shuffleStep s.groups kv }
    | _, _, _ => none
  | .mapperDone i =>
    match s.mappers[i]? with
    | some (.sending []) =>
      some { s with mappers := s.mappers.set i .finished, mapWg := s.mapWg - 1 }
    | _ => none
  | .close =>
    match s.closerStarted, s.closed, s.mapWg with
    | true, false, 0 => some { s with closed := true }
    | _, _, _ => none
  | .endShuffle =>
    match s.phase, s.closed with
    | .shuffle, true => some { s with phase := .reduce, pendingGroups := s.groups }
    | _, _ => none
  | .spawnReducer j =>
    match s.phase, s.pendingGroups[j]? with
    | .reduce, some (k, v) =>
      some { s with
        pendingGroups := s.pendingGroups.eraseIdx j
        reduceWg := s.reduceWg + 1
        reducers := s.reducers ++ [⟨k, v, .spawned⟩] }
    | _, _ => none
  | .reduceWrite i =>
    match s.reducers[i]? with
    | some ⟨k, v, .spawned⟩ =>
      some { s with
        reducers := s.reducers.set i ⟨k, v, .written⟩
        result := mapSet s.result (wordCountReducer k v).Key (wordCountReducer k v).Value }
    | _ => none
  | .reducerDone i =>
    match s.reducers[i]? with
    | some ⟨k, v, .written⟩ =>
      some { s with
        reducers := s.reducers.set i ⟨k, v, .finished⟩
        reduceWg := s.reduceWg - 1 }
    | _ => none
  | .ret =>
    match s.phase, s.pendingGroups, s.reduceWg with
    | .reduce, [], 0 => some { s with phase := .returned }
    | _, _, _ => none

/-- Replay a schedule from `s`; `none` when some action of it is not enabled. -/
def exec (unicodeToLower : Char → Char) (s : RunState) : List Action → Option RunState
  | [] => some s
  | a :: as => (step unicodeToLower s a).bind (fun s' => exec unicodeToLower s' as)

/-- All emissions of the map stage, record by record. -/
def allEmissions (unicodeToLower : Char → Char) (input : List String) : List KeyValue :=
  input.flatMap (wordCountMapper unicodeToLower)

/-- The map `Run` returns under the schedule `acts`: the result map of the state
reached, provided the schedule is enabled throughout and ends with the return of
`Run`. -/
def Run (unicodeToLower : Char → Char) (input : List String) (acts : List Action) :
    Option (List (String × Int)) :=
  (exec unicodeToLower (init input) acts).bind
    (fun s => if s.phase = .returned then some s.result else none)

/-- Number of emissions with key `k`. -/
def countKey (k : String) (kvs : List KeyValue) : Nat :=
  (kvs.filter (fun kv => decide (kv.Key = k))).length

/-- Values of the emissions with key `k`, in order. -/
def valuesOf (k : String) (kvs : List KeyValue) : List Int :=
  (kvs.filter (fun kv => decide (kv.Key = k))).map KeyValue.Value

/-- Spec wording, "maximal run of ASCII letters": cut the record at every rune
that is not an ASCII letter and drop the empty pieces; the pieces left are the
maximal runs of ASCII letters, from left to right. -/
def letterRuns (text : List Char) : List (List Char) :=
  (text.splitOnP (fun c => !isAsciiLetter c)).filter (fun r => !r.isEmpty)

/-- Spec wording, "key is that run lower-cased, value 1". -/
def tokenOfRun (run : List Char) : KeyValue :=
  ⟨String.mk (run.map Char.toLower), 1⟩

/-- Emissions a mapper goroutine has not handed over yet. -/
def MapperTask.pending : MapperTask → List KeyValue
  | .sending kvs => kvs
  | .finished => []

/-- A mapper goroutine is outstanding until its `mapWg.Done()` has run. -/
def MapperTask.outstanding : MapperTask → Bool
  | .sending _ => true
  | .finished => false

/-- Emissions of the map stage that the shuffle loop has not received yet: those
of the running mappers and those of the records not yet handed to a mapper. -/
def inFlight (unicodeToLower : Char → Char) (s : RunState) : List KeyValue :=
  s.mappers.flatMap MapperTask.pending
    ++ s.pendingInput.flatMap (wordCountMapper unicodeToLower)

/-- The reduce stage as a function: one entry `(k, wordCountReducer(k, v).Value)`
per group. -/
def reduceAll (groups : List (String × List Int)) : List (String × Int) :=
  groups.map (fun e => (e.1, (wordCountReducer e.1 e.2).Value))

/-- The arguments a reducer goroutine was spawned with. -/
def ReducerTask.args (r : ReducerTask) : String × List Int :=
  (r.k, r.v)

/-- The entry a reducer goroutine writes to `result`. -/
def ReducerTask.output (r : ReducerTask) : String × Int :=
  ((wordCountReducer r.k r.v).Key, (wordCountReducer r.k r.v).Value)

/-- A reducer goroutine is outstanding until its `reduceWg.Done()` has run. -/
def ReducerTask.outstanding (r : ReducerTask) : Bool :=
  match r.pc with
  | .finished => false
  | _ => true

/-- Whether the reducer goroutine has written its entry to `result`. -/
def ReducerTask.wrote (r : ReducerTask) : Bool :=
  match r.pc with
  | .spawned => false
  | _ => true

/-- The transitions of `step` as a relation, one rule per action. -/
inductive Step (unicodeToLower : Char → Char) : RunState → Action → RunState → Prop
  | spawnMapper (s : RunState) (txt : String) (rest : List String)
      (hphase : s.phase = .spawnMappers) (hin : s.pendingInput = txt :: rest) :
      Step unicodeToLower s .spawnMapper
        { s with
          pendingInput := rest
          mapWg := s.mapWg + 1
          mappers := s.mappers ++ [.sending (wordCountMapper unicodeToLower txt)] }
  | startCloser (s : RunState)
      (hphase : s.phase = .spawnMappers) (hin : s.pendingInput = []) :
      Step unicodeToLower s .startCloser { s with phase := .shuffle, closerStarted := true }
  | send (s : RunState) (i : Nat) (kv : KeyValue) (rest : List KeyValue)
      (hphase : s.phase = .shuffle) (hopen : s.closed = false)
      (hi : s.mappers[i]? = some (.sending (kv :: rest))) :
      Step unicodeToLower s (.send i)
        { s with
          mappers := s.mappers.set i (.sending rest)
          groups := shuffleStep s.groups kv }
  | mapperDone (s : RunState) (i : Nat) (hi : s.mappers[i]? = some (.sending [])) :
      Step unicodeToLower s (.mapperDone i)
        { s with mappers := s.mappers.set i .finished, mapWg := s.mapWg - 1 }
  | close (s : RunState) (hstarted : s.closerStarted = true) (hopen : s.closed = false)
      (hwg : s.mapWg = 0) :
      Step unicodeToLower s .close { s with closed := true }
  | endShuffle (s : RunState) (hphase : s.phase = .shuffle) (hclosed : s.closed = true) :
      Step unicodeToLower s .endShuffle { s with phase := .reduce, pendingGroups := s.groups }
  | spawnReducer (s : RunState) (j : Nat) (k : String) (v : List Int)
      (hphase : s.phase = .reduce) (hj : s.pendingGroups[j]? = some (k, v)) :
      Step unicodeToLower s (.spawnReducer j)
        { s with
          pendingGroups := s.pendingGroups.eraseIdx j
          reduceWg := s.reduceWg + 1
          reducers := s.reducers ++ [⟨k, v, .spawned⟩] }
  | reduceWrite (s : RunState) (i : Nat) (k : String) (v : List Int)
      (hi : s.reducers[i]? = some ⟨k, v, .spawned⟩) :
      Step unicodeToLower s (.reduceWrite i)
        { s with
          reducers := s.reducers.set i ⟨k, v, .written⟩
          result := mapSet s.result (wordCountReducer k v).Key (wordCountReducer k v).Value }
  | reducerDone (s : RunState) (i : Nat) (k : String) (v : List Int)
      (hi : s.reducers[i]? = some ⟨k, v, .written⟩) :
      Step unicodeToLower s (.reducerDone i)
        { s with
          reducers := s.reducers.set i ⟨k, v, .finished⟩
          reduceWg := s.reduceWg - 1 }
  | ret (s : RunState) (hphase : s.phase = .reduce) (hpg : s.pendingGroups = [])
      (hwg : s.reduceWg = 0) :
      Step unicodeToLower s .ret { s with phase := .returned }

/-- Synchronisation invariant of `Run`: the wait group counts the outstanding
mappers, the closer is started exactly when the spawn loop is left, the channel
is closed only at counter zero, and the caller is past the shuffle loop only
when the channel is closed. -/
structure InvSync (input : List String) (s : RunState) : Prop where
  spawned : s.mappers.length + s.pendingInput.length = input.length
  mapWg_eq : s.mapWg = (s.mappers.filter MapperTask.outstanding).length
  closer_iff : s.closerStarted = true ↔ s.phase ≠ .spawnMappers
  input_done : s.phase ≠ .spawnMappers → s.pendingInput = []
  closed_imp : s.closed = true → s.closerStarted = true ∧ s.mapWg = 0
  reduce_closed : (s.phase = .reduce ∨ s.phase = .returned) → s.closed = true

/-- Accounting invariant of `Run`: `groups` is the shuffle of the emissions
received so far, and these together with the emissions still in flight are the
emissions of the map stage. -/
def InvAccount (unicodeToLower : Char → Char) (input : List String) (s : RunState) : Prop :=
  ∃ received : List KeyValue,
    s.groups = shuffle received
      ∧ (received ++ inFlight unicodeToLower s).Perm (allEmissions unicodeToLower input)

/-- Reduce-stage invariant of `Run`. -/
structure InvReduce (s : RunState) : Prop where
  before_reduce : (s.phase = .spawnMappers ∨ s.phase = .shuffle) →
    s.reducers = [] ∧ s.pendingGroups = [] ∧ s.result = [] ∧ s.reduceWg = 0
  tasks_perm : (s.phase = .reduce ∨ s.phase = .returned) →
    (s.reducers.map ReducerTask.args ++ s.pendingGroups).Perm s.groups
  reduceWg_eq : s.reduceWg
    = (s.reducers.filter ReducerTask.outstanding).length
  result_perm : s.result.Perm
    ((s.reducers.filter ReducerTask.wrote).map ReducerTask.output)
  returned_imp : s.phase = .returned → s.pendingGroups = [] ∧ s.reduceWg = 0

/-- The invariant of `Run(input)`. -/
structure Inv (unicodeToLower : Char → Char) (input : List String) (s : RunState) : Prop where
  sync : InvSync input s
  account : InvAccount unicodeToLower input s
  reduce : InvReduce s

/-- The distinct keys among the emissions. -/
def distinctKeys (kvs : List KeyValue) : List String :=
  (kvs.map KeyValue.Key).dedup

/-- Upper bound on the actions a mapper goroutine still takes part in, counting
for each emission its hand-over and the three actions of a reducer it may cause. -/
def MapperTask.stepsLeft : MapperTask → Nat
  | .sending kvs => 4 * kvs.length + 1
  | .finished => 0

/-- Actions a reducer goroutine still has to take. -/
def ReducerTask.stepsLeft (r : ReducerTask) : Nat :=
  match r.pc with
  | .spawned => 2
  | .written => 1
  | .finished => 0

/-- Upper bound on the number of actions left before `Run` returns. -/
def stepBound (unicodeToLower : Char → Char) (s : RunState) : Nat :=
  (s.pendingInput.map (fun t => 4 * (wordCountMapper unicodeToLower t).length + 2)).sum
    + (s.mappers.map MapperTask.stepsLeft).sum
    + (if s.phase = .spawnMappers then 1 else 0)
    + (if s.closed = true then 0 else 1)
    + (if s.phase = .spawnMappers ∨ s.phase = .shuffle then 1 + 3 * s.groups.length else 0)
    + 3 * s.pendingGroups.length
    + (s.reducers.map ReducerTask.stepsLeft).sum
    + (if s.phase = .returned then 0 else 1)

/-! ## Example schedules -/

/-- A schedule of `Run(["the quick fox", "the slow fox"])` in which the two mappers
alternate on the channel and the reducers are spawned and merged out of order. -/
def foxSchedule : List Action :=
  [.spawnMapper, .spawnMapper, .startCloser, .send 1, .send 0, .send 0, .send 1,
    .send 1, .mapperDone 1, .send 0, .mapperDone 0, .close, .endShuffle,
    .spawnReducer 2, .spawnReducer 0, .reduceWrite 1, .spawnReducer 0,
    .spawnReducer 0, .reduceWrite 0, .reducerDone 1, .reduceWrite 3, .reduceWrite 2,
    .reducerDone 0, .reducerDone 2, .reducerDone 3, .ret]

/-- A schedule of `Run` on two records with three emissions (`["a b", "A"]`): the
second mapper sends first, the group of `b` is reduced first. -/
def abSchedule : List Action :=
  [.spawnMapper, .spawnMapper, .startCloser, .send 1, .send 0, .mapperDone 1, .send 0,
    .mapperDone 0, .close, .endShuffle, .spawnReducer 1, .spawnReducer 0,
    .reduceWrite 0, .reduceWrite 1, .reducerDone 1, .reducerDone 0, .ret]

/-- Another schedule for two records with three emissions: the mappers send one
after the other, the groups are reduced in the order of the map. -/
def abScheduleInOrder : List Action :=
  [.spawnMapper, .spawnMapper, .startCloser, .send 0, .send 0, .mapperDone 0, .send 1,
    .mapperDone 1, .close, .endShuffle, .spawnReducer 0, .spawnReducer 0,
    .reduceWrite 0, .reducerDone 0, .reduceWrite 1, .reducerDone 1, .ret]

/-- The schedule of `Run` on records without any emission, here for four records. -/
def emptySchedule : List Action :=
  [.spawnMapper, .spawnMapper, .mapperDone 0, .spawnMapper, .spawnMapper, .startCloser,
    .mapperDone 3, .mapperDone 1, .mapperDone 2, .close, .endShuffle, .ret]

/-! # Proofs -/

/-! ## Reducer: wrapping sum -/

theorem wrapInt_add_left (a b : Int) : wrapInt (wrapInt a + b) = wrapInt (a + b) := by
  unfold wrapInt
  omega

theorem wrapInt_of_fits (x : Int) (h1 : -(2 ^ 63) ≤ x) (h2 : x < 2 ^ 63) : wrapInt x = x := by
  unfold wrapInt
  omega

theorem foldl_wrap_sum (values : List Int) (acc : Int) :
    values.foldl (fun sum v => wrapInt (sum + v)) (wrapInt acc) = wrapInt (acc + values.sum) := by
  induction values generalizing acc with
  | nil => simp
  | cons v vs ih =>
    simp only [List.foldl_cons, List.sum_cons]
    rw [wrapInt_add_left, ih, add_assoc]

theorem wordCountReducer_value (key : String) (values : List Int) :
    (wordCountReducer key values).Value = wrapInt values.sum := by
  have h := foldl_wrap_sum values 0
  have h0 : wrapInt 0 = 0 := by decide
  rw [h0] at h
  simpa [wordCountReducer] using h

/-! ## Maps as association lists -/

theorem mapGet_mapSet {V : Type} (m : List (String × V)) (k k' : String) (v : V) :
    mapGet (mapSet m k v) k' = if k = k' then some v else mapGet m k' := by
  induction m with
  | nil => simp [mapSet, mapGet]
  | cons e rest ih =>
    obtain ⟨k0, v0⟩ := e
    by_cases h0 : k0 = k
    · subst h0
      by_cases h1 : k0 = k' <;> simp [mapSet, mapGet, h1]
    · by_cases h1 : k0 = k'
      · subst h1
        have h2 : ¬ k = k0 := fun h => h0 h.symm
        simp [mapSet, mapGet, h0, h2]
      · simp [mapSet, mapGet, h0, h1, ih]

theorem mem_mapKeys_mapSet {V : Type} (m : List (String × V)) (k k' : String) (v : V) :
    k' ∈ mapKeys (mapSet m k v) ↔ k' = k ∨ k' ∈ mapKeys m := by
  induction m with
  | nil => simp [mapSet, mapKeys]
  | cons e rest ih =>
    obtain ⟨k0, v0⟩ := e
    by_cases h0 : k0 = k
    · subst h0
      simp [mapSet, mapKeys]
    · have ih' : k' ∈ List.map Prod.fst (mapSet rest k v) ↔ k' = k ∨ k' ∈ List.map Prod.fst rest := ih
      simp only [mapSet, mapKeys, h0, if_false, List.map_cons, List.mem_cons, ih']
      tauto

theorem nodup_mapKeys_mapSet {V : Type} (m : List (String × V)) (k : String) (v : V)
    (h : (mapKeys m).Nodup) : (mapKeys (mapSet m k v)).Nodup := by
  induction m with
  | nil => simp [mapSet, mapKeys]
  | cons e rest ih =>
    obtain ⟨k0, v0⟩ := e
    have hn : k0 ∉ mapKeys rest ∧ (mapKeys rest).Nodup := by
      simpa [mapKeys] using h
    by_cases h0 : k0 = k
    · subst h0
      simpa [mapSet, mapKeys] using h
    · have h1 : k0 ∉ mapKeys (mapSet rest k v) := by
        rw [mem_mapKeys_mapSet]
        tauto
      have h2 := ih hn.2
      simp only [mapSet, h0, if_false]
      exact List.nodup_cons.2 ⟨h1, h2⟩

theorem mapGet_eq_none_iff {V : Type} (m : List (String × V)) (k : String) :
    mapGet m k = none ↔ k ∉ mapKeys m := by
  induction m with
  | nil => simp [mapGet, mapKeys]
  | cons e rest ih =>
    obtain ⟨k0, v0⟩ := e
    by_cases h0 : k0 = k
    · subst h0
      simp [mapGet, mapKeys]
    · have h1 : ¬ k = k0 := fun h => h0 h.symm
      have ih' : mapGet rest k = none ↔ k ∉ List.map Prod.fst rest := ih
      simp [mapGet, mapKeys, h0, h1, ih']

theorem mapSet_of_not_mem {V : Type} (m : List (String × V)) (k : String) (v : V)
    (h : k ∉ mapKeys m) : mapSet m k v = m ++ [(k, v)] := by
  induction m with
  | nil => simp [mapSet]
  | cons e rest ih =>
    obtain ⟨k0, v0⟩ := e
    have hn : ¬ k = k0 ∧ k ∉ mapKeys rest := by
      simpa [mapKeys] using h
    have h0 : ¬ k0 = k := fun h => hn.1 h.symm
    simp [mapSet, h0, ih hn.2]

theorem mapGet_eq_some_iff {V : Type} (m : List (String × V)) (k : String) (v : V)
    (h : (mapKeys m).Nodup) : mapGet m k = some v ↔ (k, v) ∈ m := by
  induction m with
  | nil => simp [mapGet]
  | cons e rest ih =>
    obtain ⟨k0, v0⟩ := e
    have hn : k0 ∉ mapKeys rest ∧ (mapKeys rest).Nodup := by
      simpa [mapKeys] using h
    by_cases h0 : k0 = k
    · subst h0
      have h1 : ∀ w, (k0, w) ∉ rest := by
        intro w hw
        exact hn.1 (List.mem_map.2 ⟨(k0, w), hw, rfl⟩)
      simp only [mapGet, if_true, Option.some.injEq, List.mem_cons, Prod.mk.injEq, true_and]
      constructor
      · intro hv
        exact Or.inl hv.symm
      · rintro (hv | hv)
        · exact hv.symm
        · exact absurd hv (h1 v)
    · have h1 : ¬ k = k0 := fun h => h0 h.symm
      simp [mapGet, h0, h1, ih hn.2]

theorem length_mapSet_le {V : Type} (m : List (String × V)) (k : String) (v : V) :
    (mapSet m k v).length ≤ m.length + 1 := by
  induction m with
  | nil => simp [mapSet]
  | cons e rest ih =>
    obtain ⟨k0, v0⟩ := e
    by_cases h0 : k0 = k
    · simp [mapSet, h0]
    · simp only [mapSet, h0, if_false, List.length_cons]
      omega

theorem sum_map_mapSet {V : Type} (f : V → Nat) (m : List (String × V)) (k : String) (v : V) :
    ((mapSet m k v).map (fun e => f e.2)).sum + ((mapGet m k).map f).getD 0
      = (m.map (fun e => f e.2)).sum + f v := by
  induction m with
  | nil => simp [mapSet, mapGet]
  | cons e rest ih =>
    obtain ⟨k0, v0⟩ := e
    by_cases h0 : k0 = k
    · simp [mapSet, mapGet, h0]
      omega
    · simp only [mapSet, mapGet, h0, if_false, List.map_cons, List.sum_cons]
      omega

/-! ## The shuffle loop -/

theorem shuffle_append_singleton (received : List KeyValue) (kv : KeyValue) :
    shuffle (received ++ [kv]) = shuffleStep (shuffle received) kv := by
  simp [shuffle, List.foldl_append]

theorem valuesOf_append (k : String) (xs ys : List KeyValue) :
    valuesOf k (xs ++ ys) = valuesOf k xs ++ valuesOf k ys := by
  simp [valuesOf]

theorem valuesOf_eq_nil_iff (k : String) (kvs : List KeyValue) :
    valuesOf k kvs = [] ↔ ∀ kv ∈ kvs, kv.Key ≠ k := by
  simp [valuesOf, List.filter_eq_nil_iff]

theorem length_valuesOf (k : String) (kvs : List KeyValue) :
    (valuesOf k kvs).length = countKey k kvs := by
  simp [valuesOf, countKey]

theorem mapGet_shuffle (received : List KeyValue) (k : String) :
    mapGet (shuffle received) k
      = if valuesOf k received = [] then none else some (valuesOf k received) := by
  induction received using List.reverseRecOn with
  | nil => simp [shuffle, mapGet, valuesOf]
  | append_singleton r kv ih =>
    rw [shuffle_append_singleton, shuffleStep, mapGet_mapSet, valuesOf_append]
    by_cases hk : kv.Key = k
    · subst hk
      rw [ih]
      have h1 : valuesOf kv.Key [kv] = [kv.Value] := by simp [valuesOf]
      rw [h1]
      by_cases h2 : valuesOf kv.Key r = [] <;> simp [h2]
    · have h1 : valuesOf k [kv] = [] := by simp [valuesOf, hk]
      rw [h1, List.append_nil, ih]
      simp [hk]

theorem nodup_mapKeys_shuffle (received : List KeyValue) :
    (mapKeys (shuffle received)).Nodup := by
  induction received using List.reverseRecOn with
  | nil => simp [shuffle, mapKeys]
  | append_singleton r kv ih =>
    rw [shuffle_append_singleton, shuffleStep]
    exact nodup_mapKeys_mapSet _ _ _ ih

theorem mem_mapKeys_shuffle (received : List KeyValue) (k : String) :
    k ∈ mapKeys (shuffle received) ↔ ∃ kv ∈ received, kv.Key = k := by
  have h := mapGet_eq_none_iff (shuffle received) k
  rw [mapGet_shuffle] at h
  by_cases h2 : valuesOf k received = []
  · have h3 := (valuesOf_eq_nil_iff k received).1 h2
    simp only [h2, if_true, true_iff] at h
    constructor
    · intro hk
      exact absurd hk h
    · rintro ⟨kv, hkv, hkey⟩
      exact absurd hkey (h3 kv hkv)
  · have h3 : ¬ ∀ kv ∈ received, kv.Key ≠ k := fun hh => h2 ((valuesOf_eq_nil_iff k received).2 hh)
    rw [if_neg h2] at h
    have h4 : k ∈ mapKeys (shuffle received) := by
      by_contra hc
      have := h.2 hc
      cases this
    push_neg at h3
    exact ⟨fun _ => h3, fun _ => h4⟩

theorem sum_length_shuffle (received : List KeyValue) :
    ((shuffle received).map (fun e => e.2.length)).sum = received.length := by
  induction received using List.reverseRecOn with
  | nil => simp [shuffle]
  | append_singleton r kv ih =>
    rw [shuffle_append_singleton, shuffleStep]
    have h := sum_map_mapSet List.length (shuffle r) kv.Key
      ((mapGet (shuffle r) kv.Key).getD [] ++ [kv.Value])
    rw [ih] at h
    cases hg : mapGet (shuffle r) kv.Key with
    | none =>
      rw [hg] at h
      simp at h
      simp [hg, h]
    | some vs =>
      rw [hg] at h
      simp at h
      simp only [List.length_append, List.length_singleton]
      simp only [hg, Option.getD_some]
      omega

/-! ## The mapper -/

theorem isSpace_of_isAsciiLetter (c : Char) (h : isAsciiLetter c = true) : isSpace c = false := by
  simp only [isAsciiLetter, Bool.or_eq_true, Bool.and_eq_true, decide_eq_true_eq] at h
  simp only [isSpace, Bool.or_eq_false_iff, Bool.and_eq_false_iff, decide_eq_false_iff_not]
  omega

theorem lowerAscii_eq_toLower (c : Char) : lowerAscii c = c.toLower := by
  simp [lowerAscii, Char.toLower]

theorem not_sep_of_mem_splitOnP {α : Type} (p : α → Bool) (l : List α) :
    ∀ r ∈ l.splitOnP p, ∀ c ∈ r, p c = false := by
  induction l with
  | nil => simp
  | cons x xs ih =>
    intro r hr c hc
    rw [List.splitOnP_cons] at hr
    by_cases hx : p x = true
    · rw [if_pos hx] at hr
      rcases List.mem_cons.1 hr with h | h
      · subst h
        cases hc
      · exact ih r h c hc
    · rw [if_neg hx] at hr
      cases hs : xs.splitOnP p with
      | nil => exact absurd hs (List.splitOnP_ne_nil p xs)
      | cons hd tl =>
        rw [hs] at hr ih
        simp only [List.modifyHead_cons, List.mem_cons] at hr
        rcases hr with h | h
        · subst h
          rcases List.mem_cons.1 hc with h1 | h1
          · subst h1
            simpa using hx
          · exact ih hd (List.mem_cons_self _ _) c h1
        · exact ih r (List.mem_cons_of_mem _ h) c hc

theorem fieldsAux_replaceRuns (cs : List Char) :
    ∀ (cur : List Char) (inRun : Bool), (inRun = true → cur = []) →
      fieldsAux cur (replaceRuns inRun cs)
        = (((cs.splitOnP (fun c => !isAsciiLetter c)).modifyHead (fun r => cur ++ r)).filter
            (fun r => !r.isEmpty)) := by
  induction cs with
  | nil =>
    intro cur inRun _
    cases cur <;> simp [replaceRuns, fieldsAux]
  | cons c cs ih =>
    intro cur inRun hrun
    rw [List.splitOnP_cons]
    by_cases hc : isAsciiLetter c = true
    · have hsp := isSpace_of_isAsciiLetter c hc
      simp only [replaceRuns, hc, if_true, fieldsAux, hsp, Bool.false_eq_true, if_false,
        Bool.not_true]
      rw [ih (cur ++ [c]) false (by simp)]
      cases hs : cs.splitOnP (fun c => !isAsciiLetter c) with
      | nil => exact absurd hs (List.splitOnP_ne_nil _ cs)
      | cons hd tl => simp
    · have hc' : isAsciiLetter c = false := by simpa using hc
      cases inRun with
      | true =>
        have hcur := hrun rfl
        subst hcur
        simp only [replaceRuns, hc', Bool.false_eq_true, if_false, if_true, Bool.not_false]
        rw [ih [] true (by simp)]
        cases hs : cs.splitOnP (fun c => !isAsciiLetter c) with
        | nil => exact absurd hs (List.splitOnP_ne_nil _ cs)
        | cons hd tl => simp
      | false =>
        have hsp : isSpace ' ' = true := by decide
        simp only [replaceRuns, hc', Bool.false_eq_true, if_false, if_true, Bool.not_false,
          fieldsAux, hsp]
        rw [ih [] true (by simp)]
        cases hs : cs.splitOnP (fun c => !isAsciiLetter c) with
        | nil => exact absurd hs (List.splitOnP_ne_nil _ cs)
        | cons hd tl => cases cur <;> simp

theorem Fields_ReplaceAllString (text : List Char) :
    Fields (ReplaceAllString text) = letterRuns text := by
  rw [Fields, ReplaceAllString, fieldsAux_replaceRuns text [] false (by simp), letterRuns]
  cases hs : text.splitOnP (fun c => !isAsciiLetter c) with
  | nil => exact absurd hs (List.splitOnP_ne_nil _ text)
  | cons hd tl => simp

theorem mem_letterRuns (text r : List Char) (h : r ∈ letterRuns text) :
    r ≠ [] ∧ ∀ c ∈ r, isAsciiLetter c = true := by
  rw [letterRuns, List.mem_filter] at h
  refine ⟨?_, ?_⟩
  · intro hr
    subst hr
    simp at h
  · intro c hc
    have := not_sep_of_mem_splitOnP _ text r h.1 c hc
    simpa using this

theorem emitField_of_letters (unicodeToLower : Char → Char) (r : List Char) (hne : r ≠ [])
    (hl : ∀ c ∈ r, isAsciiLetter c = true) :
    emitField unicodeToLower r = some (tokenOfRun r) := by
  have hascii : r.all (fun c => decide (c.toNat < 128)) = true := by
    rw [List.all_eq_true]
    intro c hc
    have := hl c hc
    simp only [isAsciiLetter, Bool.or_eq_true, Bool.and_eq_true, decide_eq_true_eq] at this
    simp only [decide_eq_true_eq]
    omega
  have hmap : r.map lowerAscii = r.map Char.toLower :=
    List.map_congr_left (fun c _ => lowerAscii_eq_toLower c)
  have hw : String.mk (r.map Char.toLower) ≠ "" := by
    intro h
    have h2 : r.map Char.toLower = [] := by
      have := congrArg String.data h
      simpa using this
    exact hne (List.map_eq_nil_iff.1 h2)
  simp only [emitField, ToLower, hascii, if_true, hmap, tokenOfRun]
  rw [if_neg hw]

theorem wordCountMapper_eq (unicodeToLower : Char → Char) (text : String) :
    wordCountMapper unicodeToLower text = (letterRuns text.data).map tokenOfRun := by
  simp only [wordCountMapper, Fields_ReplaceAllString]
  generalize hruns : letterRuns text.data = runs
  have hmem : ∀ r ∈ runs, r ≠ [] ∧ ∀ c ∈ r, isAsciiLetter c = true := by
    intro r hr
    rw [← hruns] at hr
    exact mem_letterRuns _ r hr
  clear hruns
  induction runs with
  | nil => simp
  | cons r rs ih =>
    have h1 := hmem r (List.mem_cons_self _ _)
    rw [List.filterMap_cons, emitField_of_letters unicodeToLower r h1.1 h1.2]
    simp only [List.map_cons]
    rw [ih (fun r' hr' => hmem r' (List.mem_cons_of_mem _ hr'))]

theorem value_of_mem_wordCountMapper (unicodeToLower : Char → Char) (text : String)
    (kv : KeyValue) (h : kv ∈ wordCountMapper unicodeToLower text) : kv.Value = 1 := by
  rw [wordCountMapper_eq, List.mem_map] at h
  obtain ⟨r, _, hr⟩ := h
  rw [← hr, tokenOfRun]

theorem key_of_mem_wordCountMapper (unicodeToLower : Char → Char) (text : String)
    (kv : KeyValue) (h : kv ∈ wordCountMapper unicodeToLower text) : kv.Key ≠ "" := by
  rw [wordCountMapper_eq, List.mem_map] at h
  obtain ⟨r, hr1, hr⟩ := h
  have hne := (mem_letterRuns _ r hr1).1
  rw [← hr, tokenOfRun]
  intro h
  have h2 : r.map Char.toLower = [] := by
    have := congrArg String.data h
    simpa using this
  exact hne (List.map_eq_nil_iff.1 h2)

theorem letterRuns_nil : letterRuns [] = [] := by
  simp [letterRuns]

theorem letterRuns_sep (c : Char) (rest : List Char) (hc : isAsciiLetter c = false) :
    letterRuns (c :: rest) = letterRuns rest := by
  simp [letterRuns, hc]

theorem letterRuns_run (run rest : List Char) (hne : run ≠ [])
    (hl : ∀ c ∈ run, isAsciiLetter c = true)
    (hrest : ∀ c ∈ rest.head?, isAsciiLetter c = false) :
    letterRuns (run ++ rest) = run :: letterRuns rest := by
  have hp : ∀ x ∈ run, ¬ ((fun c => !isAsciiLetter c) x = true) := by
    intro x hx
    simp [hl x hx]
  have hrun : (!run.isEmpty) = true := by
    cases run with
    | nil => exact absurd rfl hne
    | cons a as => rfl
  cases rest with
  | nil =>
    rw [List.append_nil, letterRuns, List.splitOnP_eq_single _ _ hp]
    simp [letterRuns, hrun]
  | cons c rest' =>
    have hc : isAsciiLetter c = false := hrest c (by simp)
    rw [letterRuns_sep c rest' hc, letterRuns,
      List.splitOnP_first _ _ hp c (by simp [hc]) rest']
    simp [letterRuns, hrun]

/-! ## The transition system -/

theorem Step_of_step (unicodeToLower : Char → Char) (s s' : RunState) (a : Action)
    (h : step unicodeToLower s a = some s') : Step unicodeToLower s a s' := by
  cases a with
  | spawnMapper =>
    simp only [step] at h
    split at h
    · next hp hi => cases h; exact Step.spawnMapper s _ _ hp hi
    · cases h
  | startCloser =>
    simp only [step] at h
    split at h
    · next hp hi => cases h; exact Step.startCloser s hp hi
    · cases h
  | send i =>
    simp only [step] at h
    split at h
    · next hp hc hi => cases h; exact Step.send s i _ _ hp hc hi
    · cases h
  | mapperDone i =>
    simp only [step] at h
    split at h
    · next hi => cases h; exact Step.mapperDone s i hi
    · cases h
  | close =>
    simp only [step] at h
    split at h
    · next h1 h2 h3 => cases h; exact Step.close s h1 h2 h3
    · cases h
  | endShuffle =>
    simp only [step] at h
    split at h
    · next h1 h2 => cases h; exact Step.endShuffle s h1 h2
    · cases h
  | spawnReducer j =>
    simp only [step] at h
    split at h
    · next h1 h2 => cases h; exact Step.spawnReducer s j _ _ h1 h2
    · cases h
  | reduceWrite i =>
    simp only [step] at h
    split at h
    · next hi => cases h; exact Step.reduceWrite s i _ _ hi
    · cases h
  | reducerDone i =>
    simp only [step] at h
    split at h
    · next hi => cases h; exact Step.reducerDone s i _ _ hi
    · cases h
  | ret =>
    simp only [step] at h
    split at h
    · next h1 h2 h3 => cases h; exact Step.ret s h1 h2 h3
    · cases h

theorem step_of_Step (unicodeToLower : Char → Char) (s s' : RunState) (a : Action)
    (h : Step unicodeToLower s a s') : step unicodeToLower s a = some s' := by
  cases h with
  | spawnMapper txt rest hp hi => simp [step, hp, hi]
  | startCloser hp hi => simp [step, hp, hi]
  | send i kv rest hp hc hi => simp [step, hp, hc, hi]
  | mapperDone i hi => simp [step, hi]
  | close h1 h2 h3 => simp [step, h1, h2, h3]
  | endShuffle h1 h2 => simp [step, h1, h2]
  | spawnReducer j k v h1 h2 => simp [step, h1, h2]
  | reduceWrite i k v hi => simp [step, hi]
  | reducerDone i k v hi => simp [step, hi]
  | ret h1 h2 h3 => simp [step, h1, h2, h3]

theorem exec_append (unicodeToLower : Char → Char) (acts acts' : List Action) (s : RunState) :
    exec unicodeToLower s (acts ++ acts')
      = (exec unicodeToLower s acts).bind (fun s' => exec unicodeToLower s' acts') := by
  induction acts generalizing s with
  | nil => simp [exec]
  | cons a as ih =>
    simp only [List.cons_append, exec]
    cases step unicodeToLower s a with
    | none => simp
    | some s1 => simp [ih]

theorem exec_invariant (unicodeToLower : Char → Char) (P : RunState → Prop)
    (hstep : ∀ s a s', P s → Step unicodeToLower s a s' → P s')
    (acts : List Action) :
    ∀ s s', P s → exec unicodeToLower s acts = some s' → P s' := by
  induction acts with
  | nil =>
    intro s s' hs h
    simp only [exec, Option.some.injEq] at h
    exact h ▸ hs
  | cons a as ih =>
    intro s s' hs h
    simp only [exec] at h
    cases h1 : step unicodeToLower s a with
    | none => simp [h1] at h
    | some s1 =>
      rw [h1] at h
      exact ih s1 s' (hstep s a s1 hs (Step_of_step _ _ _ _ h1)) h

/-! ### Lists with one task replaced -/

theorem perm_cons_eraseIdx {α : Type} (l : List α) (i : Nat) (a : α) (h : l[i]? = some a) :
    l.Perm (a :: l.eraseIdx i) := by
  induction l generalizing i with
  | nil => simp at h
  | cons x xs ih =>
    cases i with
    | zero =>
      simp only [List.getElem?_cons_zero, Option.some.injEq] at h
      subst h
      simp
    | succ n =>
      simp only [List.getElem?_cons_succ] at h
      simp only [List.eraseIdx_cons_succ]
      exact ((ih n h).cons x).trans (List.Perm.swap a x _)

theorem set_perm_cons_eraseIdx {α : Type} (l : List α) (i : Nat) (a b : α)
    (h : l[i]? = some a) : (l.set i b).Perm (b :: l.eraseIdx i) := by
  induction l generalizing i with
  | nil => simp at h
  | cons x xs ih =>
    cases i with
    | zero => simp
    | succ n =>
      simp only [List.getElem?_cons_succ] at h
      simp only [List.set_cons_succ, List.eraseIdx_cons_succ]
      exact ((ih n h).cons x).trans (List.Perm.swap b x _)

theorem length_filter_set {α : Type} (p : α → Bool) (l : List α) (i : Nat) (a b : α)
    (h : l[i]? = some a) :
    ((l.set i b).filter p).length + (if p a = true then 1 else 0)
      = (l.filter p).length + (if p b = true then 1 else 0) := by
  have h1 := ((set_perm_cons_eraseIdx l i a b h).filter p).length_eq
  have h2 := ((perm_cons_eraseIdx l i a h).filter p).length_eq
  rw [h1, h2]
  cases ha : p a <;> cases hb : p b <;> simp [List.filter_cons, ha, hb]

/-! ### Synchronisation invariant -/

theorem InvSync_init (input : List String) : InvSync input (init input) := by
  constructor <;> simp [init]

theorem InvSync_step (unicodeToLower : Char → Char) (input : List String)
    (s s' : RunState) (a : Action) (h : InvSync input s)
    (hstep : Step unicodeToLower s a s') : InvSync input s' := by
  obtain ⟨h1, h2, h3, h4, h5, h6⟩ := h
  cases hstep with
  | spawnMapper txt rest hp hi =>
    have hcs : s.closerStarted = false := by
      cases hc : s.closerStarted with
      | false => rfl
      | true => exact absurd hp (h3.1 hc)
    have hcl : s.closed = false := by
      cases hc : s.closed with
      | false => rfl
      | true => rw [(h5 hc).1] at hcs; cases hcs
    refine ⟨?_, ?_, ?_, ?_, ?_, ?_⟩
    · simp only [List.length_append, List.length_singleton]
      rw [hi] at h1
      simp only [List.length_cons] at h1
      omega
    · simp [List.filter_append, MapperTask.outstanding, h2]
    · simpa using h3
    · intro hne
      exact absurd hp hne
    · intro hc
      simp only at hc
      rw [hcl] at hc
      cases hc
    · simpa using h6
  | startCloser hp hi =>
    refine ⟨h1, h2, by simp, fun _ => hi, ?_, ?_⟩
    · intro hc
      exact ⟨rfl, (h5 hc).2⟩
    · intro hc
      simp at hc
  | send i kv rest hp hc hi =>
    refine ⟨?_, ?_, h3, h4, ?_, h6⟩
    · simpa using h1
    · have := length_filter_set MapperTask.outstanding s.mappers i _ (.sending rest) hi
      simp only [MapperTask.outstanding, if_true] at this
      simp only
      omega
    · intro hcl
      simp only at hcl
      rw [hc] at hcl
      cases hcl
  | mapperDone i hi =>
    have := length_filter_set MapperTask.outstanding s.mappers i _ .finished hi
    simp only [MapperTask.outstanding, if_true, Bool.false_eq_true, if_false] at this
    refine ⟨?_, ?_, h3, h4, ?_, h6⟩
    · simpa using h1
    · simp only
      omega
    · intro hcl
      have := h5 hcl
      exact ⟨this.1, by simp only; omega⟩
  | close hs hc hwg =>
    exact ⟨h1, h2, h3, h4, fun _ => ⟨hs, hwg⟩, fun _ => rfl⟩
  | endShuffle hp hc =>
    refine ⟨h1, h2, ?_, ?_, h5, fun _ => hc⟩
    · have := h3.2 (by rw [hp]; simp)
      simp [this]
    · intro _
      exact h4 (by rw [hp]; simp)
  | spawnReducer j k v hp hj =>
    exact ⟨h1, h2, h3, h4, h5, h6⟩
  | reduceWrite i k v hi =>
    exact ⟨h1, h2, h3, h4, h5, h6⟩
  | reducerDone i k v hi =>
    exact ⟨h1, h2, h3, h4, h5, h6⟩
  | ret hp hpg hwg =>
    refine ⟨h1, h2, ?_, ?_, h5, fun _ => h6 (Or.inl hp)⟩
    · have := h3.2 (by rw [hp]; simp)
      simp [this]
    · intro _
      exact h4 (by rw [hp]; simp)

/-! ### Accounting invariant -/

theorem InvAccount_init (unicodeToLower : Char → Char) (input : List String) :
    InvAccount unicodeToLower input (init input) := by
  refine ⟨[], rfl, ?_⟩
  simp [inFlight, init, allEmissions]

theorem flatMap_pending_set (mappers : List MapperTask) (i : Nat) (a b : MapperTask)
    (h : mappers[i]? = some a) (rest : List KeyValue)
    (hab : a.pending = rest ++ b.pending) :
    (mappers.flatMap MapperTask.pending).Perm
      (rest ++ (mappers.set i b).flatMap MapperTask.pending) := by
  have h1 := (perm_cons_eraseIdx mappers i a h).flatMap_right MapperTask.pending
  have h2 := (set_perm_cons_eraseIdx mappers i a b h).flatMap_right MapperTask.pending
  simp only [List.flatMap_cons] at h1 h2
  rw [hab, List.append_assoc] at h1
  exact h1.trans (h2.symm.append_left rest)

theorem InvAccount_step (unicodeToLower : Char → Char) (input : List String)
    (s s' : RunState) (a : Action) (h : InvAccount unicodeToLower input s)
    (hstep : Step unicodeToLower s a s') : InvAccount unicodeToLower input s' := by
  obtain ⟨received, hg, hperm⟩ := h
  cases hstep with
  | spawnMapper txt rest hp hi =>
    refine ⟨received, hg, ?_⟩
    have : inFlight unicodeToLower
        { s with
          pendingInput := rest
          mapWg := s.mapWg + 1
          mappers := s.mappers ++ [.sending (wordCountMapper unicodeToLower txt)] }
        = inFlight unicodeToLower s := by
      simp [inFlight, hi, List.flatMap_append, MapperTask.pending]
    rw [this]
    exact hperm
  | startCloser hp hi => exact ⟨received, hg, hperm⟩
  | send i kv rest hp hc hi =>
    refine ⟨received ++ [kv], ?_, ?_⟩
    · rw [shuffle_append_singleton, ← hg]
    · have h1 := flatMap_pending_set s.mappers i _ (.sending rest) hi [kv]
        (by simp [MapperTask.pending])
      have h2 : (inFlight unicodeToLower s).Perm
          (kv :: inFlight unicodeToLower
            { s with
              mappers := s.mappers.set i (.sending rest)
              groups := shuffleStep s.groups kv }) := by
        simp only [inFlight]
        exact h1.append_right _
      refine List.Perm.trans ?_ hperm
      rw [List.append_assoc]
      exact (h2.symm.append_left received)
  | mapperDone i hi =>
    refine ⟨received, hg, ?_⟩
    have h1 := flatMap_pending_set s.mappers i _ .finished hi []
      (by simp [MapperTask.pending])
    have h2 : (inFlight unicodeToLower s).Perm
        (inFlight unicodeToLower
          { s with mappers := s.mappers.set i .finished, mapWg := s.mapWg - 1 }) := by
      simp only [inFlight]
      exact List.Perm.append_right _ (by simpa using h1)
    exact (h2.symm.append_left received).trans hperm
  | close hs hc hwg => exact ⟨received, hg, hperm⟩
  | endShuffle hp hc => exact ⟨received, hg, hperm⟩
  | spawnReducer j k v hp hj => exact ⟨received, hg, hperm⟩
  | reduceWrite i k v hi => exact ⟨received, hg, hperm⟩
  | reducerDone i k v hi => exact ⟨received, hg, hperm⟩
  | ret hp hpg hwg => exact ⟨received, hg, hperm⟩

/-! ### Reduce-stage invariant -/

theorem InvReduce_init (input : List String) : InvReduce (init input) := by
  constructor <;> simp [init]

theorem nodup_keys_of_tasks_perm (s : RunState) (hnd : (mapKeys s.groups).Nodup)
    (hperm : (s.reducers.map ReducerTask.args ++ s.pendingGroups).Perm s.groups) :
    (s.reducers.map ReducerTask.k).Nodup := by
  have h1 := (hperm.map Prod.fst).nodup_iff.2 hnd
  rw [List.map_append, List.nodup_append] at h1
  have h2 := h1.1
  rw [List.map_map] at h2
  exact h2

theorem InvReduce_step (unicodeToLower : Char → Char) (s s' : RunState) (a : Action)
    (h : InvReduce s) (hnd : (mapKeys s.groups).Nodup)
    (hstep : Step unicodeToLower s a s') : InvReduce s' := by
  obtain ⟨h1, h2, h3, h4, h5⟩ := h
  cases hstep with
  | spawnMapper txt rest hp hi =>
    exact ⟨h1, h2, h3, h4, h5⟩
  | startCloser hp hi =>
    refine ⟨fun _ => h1 (Or.inl hp), ?_, h3, h4, ?_⟩
    · intro hc
      simp at hc
    · intro hc
      simp at hc
  | send i kv rest hp hc hi =>
    refine ⟨h1, ?_, h3, h4, h5⟩
    intro hph
    simp only [hp] at hph
    simp at hph
  | mapperDone i hi =>
    exact ⟨h1, h2, h3, h4, h5⟩
  | close hs hc hwg =>
    exact ⟨h1, h2, h3, h4, h5⟩
  | endShuffle hp hc =>
    have hb := h1 (Or.inr hp)
    refine ⟨?_, ?_, h3, h4, ?_⟩
    · intro hph
      simp at hph
    · intro _
      simp [hb.1]
    · intro hph
      simp at hph
  | spawnReducer j k v hp hj =>
    refine ⟨?_, ?_, ?_, ?_, ?_⟩
    · intro hph
      simp only [hp] at hph
      simp at hph
    · intro _
      have hold := h2 (Or.inl hp)
      have hpg := perm_cons_eraseIdx s.pendingGroups j (k, v) hj
      simp only [List.map_append, List.map_cons, List.map_nil, ReducerTask.args,
        List.append_assoc, List.singleton_append]
      exact (hpg.symm.append_left _).trans hold
    · simp [List.filter_append, h3, List.filter_cons, ReducerTask.outstanding]
    · simpa [List.filter_append, List.filter_cons, ReducerTask.wrote] using h4
    · intro hph
      simp only [hp] at hph
      cases hph
  | reduceWrite i k v hi =>
    have hne : s.reducers ≠ [] := by
      intro hnil
      rw [hnil] at hi
      simp at hi
    have hph : s.phase = .reduce ∨ s.phase = .returned := by
      cases hp : s.phase with
      | spawnMappers => exact absurd (h1 (Or.inl hp)).1 hne
      | shuffle => exact absurd (h1 (Or.inr hp)).1 hne
      | reduce => exact Or.inl rfl
      | returned => exact Or.inr rfl
    have hpa := perm_cons_eraseIdx s.reducers i _ hi
    have hpb := set_perm_cons_eraseIdx s.reducers i _ ⟨k, v, .written⟩ hi
    refine ⟨?_, ?_, ?_, ?_, h5⟩
    · intro hc
      exact absurd (h1 hc).1 hne
    · intro _
      have hold := h2 hph
      have hm : (List.map ReducerTask.args (s.reducers.set i ⟨k, v, .written⟩)).Perm
          (List.map ReducerTask.args s.reducers) :=
        (hpb.map ReducerTask.args).trans (hpa.map ReducerTask.args).symm
      exact (hm.append_right _).trans hold
    · have := length_filter_set ReducerTask.outstanding s.reducers i _
        ⟨k, v, .written⟩ hi
      simp only [ReducerTask.outstanding, if_true] at this
      simp only
      omega
    · have hkeys := nodup_keys_of_tasks_perm s hnd (h2 hph)
      have hkeys2 := (hpa.map ReducerTask.k).nodup_iff.1 hkeys
      simp only [List.map_cons, List.nodup_cons] at hkeys2
      have hold : s.result.Perm
          ((List.filter ReducerTask.wrote (s.reducers.eraseIdx i)).map
            ReducerTask.output) := by
        have := (hpa.filter ReducerTask.wrote).map ReducerTask.output
        simp only [List.filter_cons, ReducerTask.wrote, Bool.false_eq_true, if_false] at this
        exact h4.trans this
      have hnotin : k ∉ mapKeys s.result := by
        intro hin
        have h6 := (hold.map Prod.fst).mem_iff.1 hin
        simp only [List.map_map, List.mem_map, List.mem_filter] at h6
        obtain ⟨r, ⟨hr, _⟩, hrk⟩ := h6
        apply hkeys2.1
        exact List.mem_map.2 ⟨r, hr, hrk⟩
      have hnew := (hpb.filter ReducerTask.wrote).map ReducerTask.output
      simp only [List.filter_cons] at hnew
      have hk : (wordCountReducer k v).Key = k := rfl
      simp only [hk]
      rw [mapSet_of_not_mem _ _ _ hnotin]
      refine List.Perm.trans ?_ hnew.symm
      simp only [ReducerTask.wrote, if_true, List.map_cons, ReducerTask.output, hk]
      exact (List.perm_append_singleton _ _).trans (hold.cons _)
  | reducerDone i k v hi =>
    have hpa := perm_cons_eraseIdx s.reducers i _ hi
    have hpb := set_perm_cons_eraseIdx s.reducers i _ ⟨k, v, .finished⟩ hi
    have hne : s.reducers ≠ [] := by
      intro hnil
      rw [hnil] at hi
      simp at hi
    refine ⟨?_, ?_, ?_, ?_, ?_⟩
    · intro hc
      exact absurd (h1 hc).1 hne
    · intro hph
      have hold := h2 hph
      have hm : (List.map ReducerTask.args (s.reducers.set i ⟨k, v, .finished⟩)).Perm
          (List.map ReducerTask.args s.reducers) :=
        (hpb.map ReducerTask.args).trans (hpa.map ReducerTask.args).symm
      exact (hm.append_right _).trans hold
    · have := length_filter_set ReducerTask.outstanding s.reducers i _
        ⟨k, v, .finished⟩ hi
      simp only [ReducerTask.outstanding, if_true, Bool.false_eq_true, if_false] at this
      simp only
      omega
    · have hold := (hpa.filter ReducerTask.wrote).map ReducerTask.output
      have hnew := (hpb.filter ReducerTask.wrote).map ReducerTask.output
      simp only [List.filter_cons] at hold hnew
      refine (h4.trans hold).trans ?_
      refine List.Perm.trans ?_ hnew.symm
      simp [ReducerTask.output, ReducerTask.wrote]
    · intro hph
      have := h5 hph
      exact ⟨this.1, by simp only; omega⟩
  | ret hp hpg hwg =>
    refine ⟨?_, fun _ => h2 (Or.inl hp), h3, h4, fun _ => ⟨hpg, hwg⟩⟩
    intro hph
    simp at hph

/-! ### The invariant holds in every reachable state -/

theorem Inv_init (unicodeToLower : Char → Char) (input : List String) :
    Inv unicodeToLower input (init input) :=
  ⟨InvSync_init input, InvAccount_init unicodeToLower input, InvReduce_init input⟩

theorem nodup_groups_of_account (unicodeToLower : Char → Char) (input : List String)
    (s : RunState) (h : InvAccount unicodeToLower input s) : (mapKeys s.groups).Nodup := by
  obtain ⟨received, hg, _⟩ := h
  rw [hg]
  exact nodup_mapKeys_shuffle received

theorem Inv_step (unicodeToLower : Char → Char) (input : List String)
    (s : RunState) (a : Action) (s' : RunState) (h : Inv unicodeToLower input s)
    (hstep : Step unicodeToLower s a s') : Inv unicodeToLower input s' :=
  ⟨InvSync_step unicodeToLower input s s' a h.sync hstep,
    InvAccount_step unicodeToLower input s s' a h.account hstep,
    InvReduce_step unicodeToLower s s' a h.reduce
      (nodup_groups_of_account unicodeToLower input s h.account) hstep⟩

theorem Inv_exec (unicodeToLower : Char → Char) (input : List String)
    (acts : List Action) (s : RunState)
    (h : exec unicodeToLower (init input) acts = some s) : Inv unicodeToLower input s :=
  exec_invariant unicodeToLower (Inv unicodeToLower input)
    (Inv_step unicodeToLower input) acts (init input) s (Inv_init unicodeToLower input) h

theorem all_finished_of_mapWg_zero (input : List String) (s : RunState)
    (h : InvSync input s) (hwg : s.mapWg = 0) : ∀ m ∈ s.mappers, m = MapperTask.finished := by
  intro m hm
  have h1 := h.mapWg_eq
  rw [hwg] at h1
  have h2 := List.length_eq_zero.1 h1.symm
  rw [List.filter_eq_nil_iff] at h2
  have h3 := h2 m hm
  cases m with
  | sending kvs => simp [MapperTask.outstanding] at h3
  | finished => rfl

theorem flatMap_pending_of_finished (mappers : List MapperTask)
    (h : ∀ m ∈ mappers, m = MapperTask.finished) :
    mappers.flatMap MapperTask.pending = [] := by
  induction mappers with
  | nil => rfl
  | cons m ms ih =>
    have hm := h m (List.mem_cons_self _ _)
    subst hm
    simp only [List.flatMap_cons, MapperTask.pending, List.nil_append]
    exact ih (fun m' hm' => h m' (List.mem_cons_of_mem _ hm'))

/-- Once the channel is closed the map stage is over: every record has its
mapper, every mapper has finished, nothing is in flight and `groups` is the
shuffle of all emissions in the order they were received. -/
theorem closed_facts (unicodeToLower : Char → Char) (input : List String) (s : RunState)
    (h : Inv unicodeToLower input s) (hc : s.closed = true) :
    s.pendingInput = [] ∧ s.mappers.length = input.length
      ∧ (∀ m ∈ s.mappers, m = MapperTask.finished) ∧ s.mapWg = 0
      ∧ ∃ received : List KeyValue,
          received.Perm (allEmissions unicodeToLower input) ∧ s.groups = shuffle received := by
  have h1 := h.sync.closed_imp hc
  have h2 := h.sync.closer_iff.1 h1.1
  have h3 := h.sync.input_done h2
  have h4 := all_finished_of_mapWg_zero input s h.sync h1.2
  have h5 := h.sync.spawned
  rw [h3] at h5
  refine ⟨h3, by simpa using h5, h4, h1.2, ?_⟩
  obtain ⟨received, hg, hperm⟩ := h.account
  refine ⟨received, ?_, hg⟩
  have h6 : inFlight unicodeToLower s = [] := by
    simp [inFlight, h3, flatMap_pending_of_finished s.mappers h4]
  rw [h6, List.append_nil] at hperm
  exact hperm

theorem returned_facts (unicodeToLower : Char → Char) (input : List String) (s : RunState)
    (h : Inv unicodeToLower input s) (hp : s.phase = .returned) :
    (s.reducers.map ReducerTask.args).Perm s.groups
      ∧ (∀ r ∈ s.reducers, r.pc = .finished)
      ∧ s.result.Perm (reduceAll s.groups) := by
  have h1 := h.reduce.returned_imp hp
  have h2 := h.reduce.tasks_perm (Or.inr hp)
  rw [h1.1, List.append_nil] at h2
  have h3 := h.reduce.reduceWg_eq
  rw [h1.2] at h3
  have h4 := List.length_eq_zero.1 h3.symm
  rw [List.filter_eq_nil_iff] at h4
  have h5 : ∀ r ∈ s.reducers, r.pc = .finished := by
    intro r hr
    have := h4 r hr
    cases hpc : r.pc with
    | spawned => simp [ReducerTask.outstanding, hpc] at this
    | written => simp [ReducerTask.outstanding, hpc] at this
    | finished => rfl
  refine ⟨h2, h5, ?_⟩
  have h6 : s.reducers.filter ReducerTask.wrote = s.reducers := by
    rw [List.filter_eq_self]
    intro r hr
    simp [ReducerTask.wrote, h5 r hr]
  have h7 := h.reduce.result_perm
  rw [h6] at h7
  have h8 : s.reducers.map ReducerTask.output
      = reduceAll (s.reducers.map ReducerTask.args) := by
    simp [reduceAll, ReducerTask.output, ReducerTask.args, wordCountReducer]
  rw [h8] at h7
  exact h7.trans (h2.map _)

/-! ## What `Run` returns -/

theorem Run_eq_some_iff (unicodeToLower : Char → Char) (input : List String)
    (acts : List Action) (result : List (String × Int)) :
    Run unicodeToLower input acts = some result
      ↔ ∃ s, exec unicodeToLower (init input) acts = some s
          ∧ s.phase = .returned ∧ s.result = result := by
  unfold Run
  cases h : exec unicodeToLower (init input) acts with
  | none => simp
  | some s =>
    by_cases hp : s.phase = .returned
    · simp [hp]
    · simp [hp]

theorem valuesOf_perm (k : String) (xs ys : List KeyValue) (h : xs.Perm ys) :
    (valuesOf k xs).Perm (valuesOf k ys) :=
  (h.filter _).map _

theorem countKey_perm (k : String) (xs ys : List KeyValue) (h : xs.Perm ys) :
    countKey k xs = countKey k ys :=
  (h.filter _).length_eq

theorem valuesOf_eq_replicate (k : String) (kvs : List KeyValue)
    (h : ∀ kv ∈ kvs, kv.Value = 1) :
    valuesOf k kvs = List.replicate (countKey k kvs) 1 := by
  rw [List.eq_replicate_iff]
  refine ⟨length_valuesOf k kvs, ?_⟩
  intro b hb
  simp only [valuesOf, List.mem_map, List.mem_filter] at hb
  obtain ⟨kv, ⟨hkv, _⟩, hv⟩ := hb
  rw [← hv]
  exact h kv hkv

theorem value_of_mem_allEmissions (unicodeToLower : Char → Char) (input : List String)
    (kv : KeyValue) (h : kv ∈ allEmissions unicodeToLower input) : kv.Value = 1 := by
  simp only [allEmissions, List.mem_flatMap] at h
  obtain ⟨text, _, hkv⟩ := h
  exact value_of_mem_wordCountMapper unicodeToLower text kv hkv

theorem sum_replicate_one (n : Nat) : (List.replicate n (1 : Int)).sum = (n : Int) := by
  induction n with
  | zero => simp
  | succ m ih =>
    rw [List.replicate_succ, List.sum_cons, ih]
    push_cast
    ring

theorem countKey_eq_zero_iff (k : String) (kvs : List KeyValue) :
    countKey k kvs = 0 ↔ ∀ kv ∈ kvs, kv.Key ≠ k := by
  rw [← length_valuesOf, List.length_eq_zero, valuesOf_eq_nil_iff]

theorem mapGet_reduceAll (groups : List (String × List Int)) (k : String) :
    mapGet (reduceAll groups) k
      = (mapGet groups k).map (fun v => (wordCountReducer k v).Value) := by
  induction groups with
  | nil => simp [reduceAll, mapGet]
  | cons e rest ih =>
    obtain ⟨k0, v0⟩ := e
    have ih' : mapGet (List.map (fun e => (e.1, (wordCountReducer e.1 e.2).Value)) rest) k
        = (mapGet rest k).map (fun v => (wordCountReducer k v).Value) := ih
    by_cases h0 : k0 = k
    · subst h0
      simp [reduceAll, mapGet]
    · simp [reduceAll, mapGet, h0, ih']

theorem mapKeys_reduceAll (groups : List (String × List Int)) :
    mapKeys (reduceAll groups) = mapKeys groups := by
  simp [reduceAll, mapKeys]

theorem mapGet_perm {V : Type} (m1 m2 : List (String × V)) (k : String)
    (hnd : (mapKeys m1).Nodup) (h : m1.Perm m2) : mapGet m1 k = mapGet m2 k := by
  have hnd2 : (mapKeys m2).Nodup := (h.map Prod.fst).nodup_iff.1 hnd
  apply Option.ext
  intro v
  simp only [Option.mem_def]
  rw [mapGet_eq_some_iff m1 k v hnd, mapGet_eq_some_iff m2 k v hnd2]
  exact h.mem_iff

/-- The content of the map built by shuffle and reduce from the emissions
`received`, when these are a rearrangement of emissions `all` of value 1: the key
`k` is present iff some emission has key `k`, with the wrapped count as value. -/
theorem mapGet_reduceAll_shuffle (all received : List KeyValue) (k : String)
    (hperm : received.Perm all) (hone : ∀ kv ∈ all, kv.Value = 1) :
    mapGet (reduceAll (shuffle received)) k
      = if countKey k all = 0 then none else some (wrapInt (countKey k all)) := by
  have hone' : ∀ kv ∈ received, kv.Value = 1 := fun kv hkv => hone kv (hperm.mem_iff.1 hkv)
  have hcount := countKey_perm k received all hperm
  rw [mapGet_reduceAll, mapGet_shuffle, valuesOf_eq_replicate k received hone', hcount]
  by_cases h0 : countKey k all = 0
  · simp [h0]
  · have h1 : List.replicate (countKey k all) (1 : Int) ≠ [] := by
      intro h
      have := congrArg List.length h
      simp at this
      exact h0 this
    simp only [h1, h0, if_false, Option.map_some']
    rw [wordCountReducer_value, sum_replicate_one]

theorem result_of_returned (unicodeToLower : Char → Char) (input : List String)
    (s : RunState) (h : Inv unicodeToLower input s) (hp : s.phase = .returned) :
    (mapKeys s.result).Nodup
      ∧ ∀ k, mapGet s.result k
          = if countKey k (allEmissions unicodeToLower input) = 0 then none
            else some (wrapInt (countKey k (allEmissions unicodeToLower input))) := by
  have hc := h.sync.reduce_closed (Or.inr hp)
  obtain ⟨_, _, _, _, received, hperm, hg⟩ := closed_facts unicodeToLower input s h hc
  obtain ⟨_, _, hres⟩ := returned_facts unicodeToLower input s h hp
  rw [hg] at hres
  have hnd : (mapKeys s.result).Nodup := by
    have := (hres.map Prod.fst).nodup_iff.2
    apply this
    have h2 := nodup_mapKeys_shuffle received
    rw [← mapKeys_reduceAll] at h2
    exact h2
  refine ⟨hnd, ?_⟩
  intro k
  rw [mapGet_perm _ _ k hnd hres]
  exact mapGet_reduceAll_shuffle _ received k hperm
    (value_of_mem_allEmissions unicodeToLower input)

theorem Run_spec (unicodeToLower : Char → Char) (input : List String)
    (acts : List Action) (result : List (String × Int))
    (h : Run unicodeToLower input acts = some result) :
    (mapKeys result).Nodup
      ∧ ∀ k, mapGet result k
          = if countKey k (allEmissions unicodeToLower input) = 0 then none
            else some (wrapInt (countKey k (allEmissions unicodeToLower input))) := by
  obtain ⟨s, hexec, hp, hres⟩ := (Run_eq_some_iff _ _ _ _).1 h
  rw [← hres]
  exact result_of_returned unicodeToLower input s (Inv_exec unicodeToLower input acts s hexec) hp

theorem mem_distinctKeys (k : String) (kvs : List KeyValue) :
    k ∈ distinctKeys kvs ↔ countKey k kvs ≠ 0 := by
  rw [Ne, countKey_eq_zero_iff, distinctKeys, List.mem_dedup, List.mem_map]
  push_neg
  rfl

/-- The map `Run` returns is, up to the order of its entries, the list holding for
each distinct key the wrapped number of emissions with that key. -/
theorem Run_perm (unicodeToLower : Char → Char) (input : List String)
    (acts : List Action) (result : List (String × Int))
    (h : Run unicodeToLower input acts = some result) :
    result.Perm ((distinctKeys (allEmissions unicodeToLower input)).map
      (fun k => (k, wrapInt (countKey k (allEmissions unicodeToLower input))))) := by
  obtain ⟨hnd, hget⟩ := Run_spec unicodeToLower input acts result h
  have hnd1 : result.Nodup := List.Nodup.of_map Prod.fst hnd
  have hnd2 : ((distinctKeys (allEmissions unicodeToLower input)).map
      (fun k => (k, wrapInt (countKey k (allEmissions unicodeToLower input))))).Nodup := by
    apply List.Nodup.map
    · intro a b hab
      exact congrArg Prod.fst hab
    · exact List.nodup_dedup _
  rw [List.perm_ext_iff_of_nodup hnd1 hnd2]
  rintro ⟨k, x⟩
  rw [← mapGet_eq_some_iff result k x hnd, hget k, List.mem_map]
  constructor
  · intro hx
    by_cases h0 : countKey k (allEmissions unicodeToLower input) = 0
    · simp [h0] at hx
    · simp only [h0, if_false, Option.some.injEq] at hx
      exact ⟨k, (mem_distinctKeys k _).2 h0, by rw [hx]⟩
  · rintro ⟨k', hk', heq⟩
    simp only [Prod.mk.injEq] at heq
    obtain ⟨h1, h2⟩ := heq
    subst h1
    have h0 := (mem_distinctKeys k' _).1 hk'
    simp only [h0, if_false, Option.some.injEq]
    exact h2

/-! ## Every schedule ends with the return of `Run` -/

theorem sum_map_set {α : Type} (f : α → Nat) (l : List α) (i : Nat) (a b : α)
    (h : l[i]? = some a) :
    ((l.set i b).map f).sum + f a = (l.map f).sum + f b := by
  have h1 := ((set_perm_cons_eraseIdx l i a b h).map f).sum_eq
  have h2 := ((perm_cons_eraseIdx l i a h).map f).sum_eq
  simp only [List.map_cons, List.sum_cons] at h1 h2
  omega

theorem length_eraseIdx_of_getElem? {α : Type} (l : List α) (i : Nat) (a : α)
    (h : l[i]? = some a) : (l.eraseIdx i).length + 1 = l.length := by
  have := (perm_cons_eraseIdx l i a h).length_eq
  simp only [List.length_cons] at this
  omega

theorem stepBound_decreases (unicodeToLower : Char → Char) (s s' : RunState) (a : Action)
    (hstep : Step unicodeToLower s a s') :
    stepBound unicodeToLower s' < stepBound unicodeToLower s := by
  cases hstep with
  | spawnMapper txt rest hp hi =>
    simp only [stepBound, hp, hi, List.map_cons, List.sum_cons, List.map_append,
      List.sum_append, List.map_nil, List.sum_nil, MapperTask.stepsLeft]
    omega
  | startCloser hp hi =>
    simp only [stepBound, hp, hi]
    simp
  | send i kv rest hp hc hi =>
    have h1 := sum_map_set MapperTask.stepsLeft s.mappers i _ (.sending rest) hi
    have h2 := length_mapSet_le s.groups kv.Key ((mapGet s.groups kv.Key).getD [] ++ [kv.Value])
    simp only [MapperTask.stepsLeft, List.length_cons] at h1
    simp only [stepBound, hp, hc, shuffleStep]
    simp [-List.map_set]
    omega
  | mapperDone i hi =>
    have h1 := sum_map_set MapperTask.stepsLeft s.mappers i _ .finished hi
    simp only [MapperTask.stepsLeft, List.length_nil] at h1
    simp only [stepBound]
    omega
  | close hs hc hwg =>
    simp only [stepBound, hc]
    simp
  | endShuffle hp hc =>
    simp only [stepBound, hp, hc]
    simp
    omega
  | spawnReducer j k v hp hj =>
    have h1 := length_eraseIdx_of_getElem? s.pendingGroups j _ hj
    simp only [stepBound, hp, List.map_append, List.sum_append, List.map_cons, List.map_nil,
      List.sum_cons, List.sum_nil, ReducerTask.stepsLeft]
    omega
  | reduceWrite i k v hi =>
    have h1 := sum_map_set ReducerTask.stepsLeft s.reducers i _ ⟨k, v, .written⟩ hi
    simp only [ReducerTask.stepsLeft] at h1
    simp only [stepBound]
    omega
  | reducerDone i k v hi =>
    have h1 := sum_map_set ReducerTask.stepsLeft s.reducers i _ ⟨k, v, .finished⟩ hi
    simp only [ReducerTask.stepsLeft] at h1
    simp only [stepBound]
    omega
  | ret hp hpg hwg =>
    simp only [stepBound, hp, hpg]
    simp

theorem exec_length_le (unicodeToLower : Char → Char) (acts : List Action) :
    ∀ s s', exec unicodeToLower s acts = some s' →
      acts.length + stepBound unicodeToLower s' ≤ stepBound unicodeToLower s := by
  induction acts with
  | nil =>
    intro s s' h
    simp only [exec, Option.some.injEq] at h
    subst h
    simp
  | cons a as ih =>
    intro s s' h
    simp only [exec] at h
    cases h1 : step unicodeToLower s a with
    | none => simp [h1] at h
    | some s1 =>
      rw [h1] at h
      have h2 := ih s1 s' h
      have h3 := stepBound_decreases unicodeToLower s s1 a (Step_of_step _ _ _ _ h1)
      simp only [List.length_cons]
      omega

theorem exists_getElem?_of_mem {α : Type} (l : List α) (a : α) (h : a ∈ l) :
    ∃ i : Nat, l[i]? = some a := by
  obtain ⟨i, hi, hget⟩ := List.getElem_of_mem h
  exact ⟨i, by rw [List.getElem?_eq_getElem hi, hget]⟩

/-- No reachable state short of the return is stuck: some action is enabled. -/
theorem progress (unicodeToLower : Char → Char) (input : List String) (s : RunState)
    (h : Inv unicodeToLower input s) (hp : s.phase ≠ .returned) :
    ∃ a s', step unicodeToLower s a = some s' := by
  cases hphase : s.phase with
  | returned => exact absurd hphase hp
  | spawnMappers =>
    cases hin : s.pendingInput with
    | nil => exact ⟨.startCloser, _, step_of_Step _ _ _ _ (Step.startCloser s hphase hin)⟩
    | cons txt rest =>
      exact ⟨.spawnMapper, _, step_of_Step _ _ _ _ (Step.spawnMapper s txt rest hphase hin)⟩
  | shuffle =>
    cases hc : s.closed with
    | true => exact ⟨.endShuffle, _, step_of_Step _ _ _ _ (Step.endShuffle s hphase hc)⟩
    | false =>
      by_cases hall : ∀ m ∈ s.mappers, m = MapperTask.finished
      · have hwg : s.mapWg = 0 := by
          rw [h.sync.mapWg_eq, List.length_eq_zero, List.filter_eq_nil_iff]
          intro m hm
          rw [hall m hm]
          simp [MapperTask.outstanding]
        have hcs : s.closerStarted = true := h.sync.closer_iff.2 (by rw [hphase]; simp)
        exact ⟨.close, _, step_of_Step _ _ _ _ (Step.close s hcs hc hwg)⟩
      · push_neg at hall
        obtain ⟨m, hm, hne⟩ := hall
        obtain ⟨i, hi⟩ := exists_getElem?_of_mem s.mappers m hm
        cases m with
        | finished => exact absurd rfl hne
        | sending kvs =>
          cases kvs with
          | nil => exact ⟨.mapperDone i, _, step_of_Step _ _ _ _ (Step.mapperDone s i hi)⟩
          | cons kv rest =>
            exact ⟨.send i, _, step_of_Step _ _ _ _ (Step.send s i kv rest hphase hc hi)⟩
  | reduce =>
    cases hpg : s.pendingGroups with
    | cons e rest =>
      have hj : s.pendingGroups[0]? = some (e.1, e.2) := by rw [hpg]; simp
      exact ⟨.spawnReducer 0, _,
        step_of_Step _ _ _ _ (Step.spawnReducer s 0 e.1 e.2 hphase hj)⟩
    | nil =>
      by_cases hall : ∀ r ∈ s.reducers, r.pc = ReducerPc.finished
      · have hwg : s.reduceWg = 0 := by
          rw [h.reduce.reduceWg_eq, List.length_eq_zero, List.filter_eq_nil_iff]
          intro r hr
          simp [ReducerTask.outstanding, hall r hr]
        exact ⟨.ret, _, step_of_Step _ _ _ _ (Step.ret s hphase hpg hwg)⟩
      · push_neg at hall
        obtain ⟨r, hr, hne⟩ := hall
        obtain ⟨i, hi⟩ := exists_getElem?_of_mem s.reducers r hr
        obtain ⟨k, v, pc⟩ := r
        cases pc with
        | finished => exact absurd rfl hne
        | spawned =>
          exact ⟨.reduceWrite i, _, step_of_Step _ _ _ _ (Step.reduceWrite s i k v hi)⟩
        | written =>
          exact ⟨.reducerDone i, _, step_of_Step _ _ _ _ (Step.reducerDone s i k v hi)⟩

theorem completes_from (unicodeToLower : Char → Char) (input : List String) (n : Nat) :
    ∀ s, Inv unicodeToLower input s → stepBound unicodeToLower s ≤ n →
      ∃ rest s', exec unicodeToLower s rest = some s' ∧ s'.phase = .returned := by
  induction n with
  | zero =>
    intro s h hn
    by_cases hp : s.phase = .returned
    · exact ⟨[], s, rfl, hp⟩
    · obtain ⟨a, s1, hs⟩ := progress unicodeToLower input s h hp
      have := stepBound_decreases unicodeToLower s s1 a (Step_of_step _ _ _ _ hs)
      omega
  | succ m ih =>
    intro s h hn
    by_cases hp : s.phase = .returned
    · exact ⟨[], s, rfl, hp⟩
    · obtain ⟨a, s1, hs⟩ := progress unicodeToLower input s h hp
      have hstep := Step_of_step _ _ _ _ hs
      have hlt := stepBound_decreases unicodeToLower s s1 a hstep
      obtain ⟨rest, s', hexec, hret⟩ :=
        ih s1 (Inv_step unicodeToLower input s a s1 h hstep) (by omega)
      refine ⟨a :: rest, s', ?_, hret⟩
      simp [exec, hs, hexec]

/-- Total correctness of the schedule space of `Run(input)`: every enabled schedule
can be continued until `Run` returns, and no enabled schedule is longer than the
bound of the initial state. -/
theorem Run_completes (unicodeToLower : Char → Char) (input : List String)
    (acts : List Action) (s : RunState)
    (h : exec unicodeToLower (init input) acts = some s) :
    (∃ rest result, Run unicodeToLower input (acts ++ rest) = some result)
      ∧ acts.length ≤ stepBound unicodeToLower (init input) := by
  constructor
  · obtain ⟨rest, s', hexec, hret⟩ := completes_from unicodeToLower input _ s
      (Inv_exec unicodeToLower input acts s h) (le_refl _)
    refine ⟨rest, s'.result, ?_⟩
    rw [Run_eq_some_iff]
    exact ⟨s', by rw [exec_append, h]; exact hexec, hret, rfl⟩
  · have := exec_length_le unicodeToLower acts (init input) s h
    omega

/-! ## Further facts about reachable states -/

theorem groups_nil_of_spawnMappers (unicodeToLower : Char → Char) (input : List String)
    (acts : List Action) (s : RunState)
    (h : exec unicodeToLower (init input) acts = some s) (hp : s.phase = .spawnMappers) :
    s.groups = [] := by
  have hP : s.phase = .spawnMappers → s.groups = [] := by
    refine exec_invariant unicodeToLower (fun t => t.phase = .spawnMappers → t.groups = [])
      ?_ acts (init input) s (fun _ => rfl) h
    intro t a t' ht hstep
    cases hstep with
    | spawnMapper txt rest hp hi => exact ht
    | startCloser hp hi => intro hc; simp at hc
    | send i kv rest hp hc hi => intro hc; simp only [hp] at hc; cases hc
    | mapperDone i hi => exact ht
    | close hs hc hwg => exact ht
    | endShuffle hp hc => intro hc; simp at hc
    | spawnReducer j k v hp hj => exact ht
    | reduceWrite i k v hi => exact ht
    | reducerDone i k v hi => exact ht
    | ret hp hpg hwg => intro hc; simp at hc
  exact hP hp

theorem reduce_phase_of_reducers (s : RunState) (h : InvReduce s) (hne : s.reducers ≠ []) :
    s.phase = .reduce ∨ s.phase = .returned := by
  cases hp : s.phase with
  | spawnMappers => exact absurd (h.before_reduce (Or.inl hp)).1 hne
  | shuffle => exact absurd (h.before_reduce (Or.inr hp)).1 hne
  | reduce => exact Or.inl rfl
  | returned => exact Or.inr rfl

theorem nodup_reducer_keys (unicodeToLower : Char → Char) (input : List String)
    (s : RunState) (h : Inv unicodeToLower input s) :
    (s.reducers.map ReducerTask.k).Nodup := by
  by_cases hne : s.reducers = []
  · simp [hne]
  · exact nodup_keys_of_tasks_perm s
      (nodup_groups_of_account unicodeToLower input s h.account)
      (h.reduce.tasks_perm (reduce_phase_of_reducers s h.reduce hne))

theorem fresh_key_of_spawned (unicodeToLower : Char → Char) (input : List String)
    (s : RunState) (h : Inv unicodeToLower input s) (i : Nat) (r : ReducerTask)
    (hi : s.reducers[i]? = some r) (hpc : r.pc = .spawned) : r.k ∉ mapKeys s.result := by
  have hkeys := nodup_reducer_keys unicodeToLower input s h
  have hpa := perm_cons_eraseIdx s.reducers i r hi
  have hkeys2 := (hpa.map ReducerTask.k).nodup_iff.1 hkeys
  simp only [List.map_cons, List.nodup_cons] at hkeys2
  have hold := (hpa.filter ReducerTask.wrote).map ReducerTask.output
  have hw : ReducerTask.wrote r = false := by simp [ReducerTask.wrote, hpc]
  simp only [List.filter_cons, hw, Bool.false_eq_true, if_false] at hold
  intro hin
  have h6 := (((h.reduce.result_perm).trans hold).map Prod.fst).mem_iff.1 hin
  simp only [List.map_map, List.mem_map, List.mem_filter] at h6
  obtain ⟨r', ⟨hr', _⟩, hrk⟩ := h6
  apply hkeys2.1
  exact List.mem_map.2 ⟨r', hr', hrk⟩

theorem groups_frozen_step (unicodeToLower : Char → Char) (s s' : RunState) (a : Action)
    (hc : s.closed = true) (hstep : Step unicodeToLower s a s') :
    s'.closed = true ∧ s'.groups = s.groups := by
  cases hstep with
  | spawnMapper txt rest hp hi => exact ⟨hc, rfl⟩
  | startCloser hp hi => exact ⟨hc, rfl⟩
  | send i kv rest hp hopen hi => rw [hc] at hopen; cases hopen
  | mapperDone i hi => exact ⟨hc, rfl⟩
  | close hs hopen hwg => exact ⟨rfl, rfl⟩
  | endShuffle hp hc' => exact ⟨hc, rfl⟩
  | spawnReducer j k v hp hj => exact ⟨hc, rfl⟩
  | reduceWrite i k v hi => exact ⟨hc, rfl⟩
  | reducerDone i k v hi => exact ⟨hc, rfl⟩
  | ret hp hpg hwg => exact ⟨hc, rfl⟩

theorem groups_frozen (unicodeToLower : Char → Char) (s : RunState) (hc : s.closed = true)
    (rest : List Action) (s' : RunState) (h : exec unicodeToLower s rest = some s') :
    s'.groups = s.groups := by
  have := exec_invariant unicodeToLower (fun t => t.closed = true ∧ t.groups = s.groups)
    (fun t a t' ht hstep => by
      have h1 := groups_frozen_step unicodeToLower t t' a ht.1 hstep
      exact ⟨h1.1, h1.2.trans ht.2⟩)
    rest s s' ⟨hc, rfl⟩ h
  exact this.2

theorem letterRuns_of_no_letter (text : List Char)
    (h : ∀ c ∈ text, isAsciiLetter c = false) : letterRuns text = [] := by
  induction text with
  | nil => exact letterRuns_nil
  | cons c cs ih =>
    rw [letterRuns_sep c cs (h c (List.mem_cons_self _ _))]
    exact ih (fun c' hc' => h c' (List.mem_cons_of_mem _ hc'))

theorem allEmissions_eq (unicodeToLower : Char → Char) (input : List String) :
    allEmissions unicodeToLower input
      = input.flatMap (fun text => (letterRuns text.data).map tokenOfRun) := by
  simp only [allEmissions]
  congr 1
  funext text
  exact wordCountMapper_eq unicodeToLower text

theorem countKey_le_length (k : String) (kvs : List KeyValue) : countKey k kvs ≤ kvs.length :=
  List.length_filter_le _ _

theorem count_map_Key (k : String) (kvs : List KeyValue) :
    List.count k (kvs.map KeyValue.Key) = countKey k kvs := by
  induction kvs with
  | nil => simp [countKey]
  | cons kv rest ih =>
    by_cases hk : kv.Key = k
    · simp [countKey, List.filter_cons, hk, List.count_cons] at ih ⊢
      exact ih
    · simp [countKey, List.filter_cons, hk, List.count_cons] at ih ⊢
      exact ih

theorem sum_countKey_distinctKeys (kvs : List KeyValue) :
    ((distinctKeys kvs).map (fun k => countKey k kvs)).sum = kvs.length := by
  have h := List.sum_map_count_dedup_eq_length (kvs.map KeyValue.Key)
  simp only [count_map_Key, List.length_map] at h
  exact h

/-! # The claims -/

/-- C2. For every text record, `wordCountMapper` returns, from left to right, one
`KeyValue{key, 1}` per maximal run of ASCII letters of the record, `key` being the
run lower-cased.  Every rune that is not an ASCII letter only separates: a
separator in front of a text changes nothing, and a non-empty run of letters that
is followed by the end of the text or by a separator yields exactly one emission.
No emitted key is empty.  `"Cat, cat CAT!"` yields three emissions with key
`"cat"`, and `"A-B"`, `"a b"`, `"AB"` yield the tokens `[a, b]`, `[a, b]`, `[ab]`. -/
theorem wordCountMapper_letter_runs (unicodeToLower : Char → Char) (text : String) :
    wordCountMapper unicodeToLower text = (letterRuns text.data).map tokenOfRun
    ∧ (∀ kv ∈ wordCountMapper unicodeToLower text, kv.Key ≠ "" ∧ kv.Value = 1)
    ∧ wordCountMapper unicodeToLower "" = []
    ∧ (∀ (c : Char) (rest : List Char), isAsciiLetter c = false →
        wordCountMapper unicodeToLower (String.mk (c :: rest))
          = wordCountMapper unicodeToLower (String.mk rest))
    ∧ (∀ run rest : List Char, run ≠ [] → (∀ c ∈ run, isAsciiLetter c = true) →
        (∀ c ∈ rest.head?, isAsciiLetter c = false) →
        wordCountMapper unicodeToLower (String.mk (run ++ rest))
          = ⟨String.mk (run.map Char.toLower), 1⟩
            :: wordCountMapper unicodeToLower (String.mk rest))
    ∧ wordCountMapper unicodeToLower "Cat, cat CAT!" = [⟨"cat", 1⟩, ⟨"cat", 1⟩, ⟨"cat", 1⟩]
    ∧ wordCountMapper unicodeToLower "A-B" = [⟨"a", 1⟩, ⟨"b", 1⟩]
    ∧ wordCountMapper unicodeToLower "a b" = [⟨"a", 1⟩, ⟨"b", 1⟩]
    ∧ wordCountMapper unicodeToLower "AB" = [⟨"ab", 1⟩] := by
  refine ⟨wordCountMapper_eq unicodeToLower text, ?_, ?_, ?_, ?_, ?_, ?_, ?_, ?_⟩
  · intro kv hkv
    exact ⟨key_of_mem_wordCountMapper unicodeToLower text kv hkv,
      value_of_mem_wordCountMapper unicodeToLower text kv hkv⟩
  · rw [wordCountMapper_eq]
    decide
  · intro c rest hc
    rw [wordCountMapper_eq, wordCountMapper_eq]
    simp only [letterRuns_sep c rest hc]
  · intro run rest hne hl hrest
    rw [wordCountMapper_eq, wordCountMapper_eq]
    simp only [letterRuns_run run rest hne hl hrest, List.map_cons, tokenOfRun]
  · rw [wordCountMapper_eq]
    decide
  · rw [wordCountMapper_eq]
    decide
  · rw [wordCountMapper_eq]
    decide
  · rw [wordCountMapper_eq]
    decide

/-- Witness for C2: the record `"go2Go"` is the run `go`, then the separator `2`
and the run `Go`. -/
theorem wordCountMapper_letter_runs_witness :
    wordCountMapper id "go2Go" = [⟨"go", 1⟩, ⟨"go", 1⟩] :=
  ((wordCountMapper_letter_runs id "").2.2.2.2.1 ['g', 'o'] ['2', 'G', 'o']
      (by decide) (by decide) (by decide)).trans (by decide)

/-- C4. For every key and every list of integers, `wordCountReducer` returns the
key unchanged and, as value, the sum of the list in the wrapping arithmetic of a
64-bit Go `int`: the value lies in the range of `int`, it is the representative of
the sum modulo `2 ^ 64` in that range (so the exact sum whenever that fits, and 0
for the empty list), and it wraps around where the sum leaves the range:
`[9223372036854775807, 1]` gives `-9223372036854775808` and
`[-9223372036854775808, -1]` gives `9223372036854775807`.  Two lists that are
permutations of each other give the same `KeyValue`. -/
theorem wordCountReducer_sum (key : String) (values : List Int) :
    (wordCountReducer key values).Key = key
    ∧ (wordCountReducer key values).Value = wrapInt values.sum
    ∧ (wordCountReducer key values).Value
        = (values.sum + 9223372036854775808) % 18446744073709551616 - 9223372036854775808
    ∧ (-9223372036854775808 ≤ (wordCountReducer key values).Value
        ∧ (wordCountReducer key values).Value ≤ 9223372036854775807)
    ∧ (-(2 ^ 63) ≤ values.sum → values.sum < 2 ^ 63 →
        (wordCountReducer key values).Value = values.sum)
    ∧ wordCountReducer key [] = ⟨key, 0⟩
    ∧ wordCountReducer key [9223372036854775807, 1] = ⟨key, -9223372036854775808⟩
    ∧ wordCountReducer key [-9223372036854775808, -1] = ⟨key, 9223372036854775807⟩
    ∧ wordCountReducer key [9223372036854775807, 9223372036854775807, 3] = ⟨key, 1⟩
    ∧ (∀ values' : List Int, values.Perm values' →
        wordCountReducer key values' = wordCountReducer key values) := by
  have hval := wordCountReducer_value key values
  refine ⟨rfl, hval, ?_, ?_, ?_, rfl, ?_, ?_, ?_, ?_⟩
  · rw [hval, wrapInt]
    norm_num
  · rw [hval, wrapInt]
    omega
  · intro h1 h2
    rw [wordCountReducer_value, wrapInt_of_fits _ h1 h2]
  · have h : [9223372036854775807, 1].foldl (fun sum v => wrapInt (sum + v)) 0
        = -9223372036854775808 := by decide
    simp only [wordCountReducer, h]
  · have h : [-9223372036854775808, -1].foldl (fun sum v => wrapInt (sum + v)) 0
        = 9223372036854775807 := by decide
    simp only [wordCountReducer, h]
  · have h : [9223372036854775807, 9223372036854775807, 3].foldl
        (fun sum v => wrapInt (sum + v)) 0 = 1 := by decide
    simp only [wordCountReducer, h]
  · intro values' hperm
    have h1 := wordCountReducer_value key values
    have h2 := wordCountReducer_value key values'
    rw [← hperm.sum_eq] at h2
    have hk : (wordCountReducer key values').Key = (wordCountReducer key values).Key := rfl
    cases hv : wordCountReducer key values' with
    | mk k1 v1 =>
      cases hw : wordCountReducer key values with
      | mk k2 v2 =>
        rw [hv] at h2 hk
        rw [hw] at h1 hk
        simp only at h1 h2 hk
        rw [h1, h2, hk]

/-- Witness for C4: `[3, 1, 2]` is a permutation of `[1, 2, 3]`, and both sum to 6
under the key `"a"`; the list `[9223372036854775807, 1]`, whose sum `2 ^ 63` is no
`int`, is a permutation of `[1, 9223372036854775807]` and both give
`-9223372036854775808`. -/
theorem wordCountReducer_sum_witness :
    [1, 2, 3].Perm [3, 1, 2]
    ∧ wordCountReducer "a" [3, 1, 2] = wordCountReducer "a" [1, 2, 3]
    ∧ (wordCountReducer "a" [1, 2, 3]).Value = 6
    ∧ (wordCountReducer "a" [9223372036854775807, 1]).Value = -9223372036854775808
    ∧ wordCountReducer "a" [1, 9223372036854775807] = ⟨"a", -9223372036854775808⟩ :=
  ⟨by decide, (wordCountReducer_sum "a" [1, 2, 3]).2.2.2.2.2.2.2.2.2 [3, 1, 2] (by decide),
    ((wordCountReducer_sum "a" [1, 2, 3]).2.2.2.2.1 (by decide) (by decide)).trans
      (by decide),
    ((wordCountReducer_sum "a" [9223372036854775807, 1]).2.2.1).trans (by decide),
    ((wordCountReducer_sum "a" [9223372036854775807, 1]).2.2.2.2.2.2.2.2.2
      [1, 9223372036854775807] (by decide)).trans
      (wordCountReducer_sum "a" []).2.2.2.2.2.2.1⟩

/-- C7. Loop invariant of the shuffle loop of `Run` (lines 65-69).  For every
sequence `received` of emissions taken from the channel so far: the keys of
`groups` are pairwise distinct; `groups[k]` is exactly the list of the values of
the received emissions with key `k`, in order of receipt; `k` is a key of `groups`
iff some received emission has key `k`; the lengths of all groups add up to the
number of emissions received; and one more turn of the loop is `shuffleStep`.  In
every state `Run` reaches, `groups` is this shuffle of a sequence of emissions that
together with the emissions still in flight is a rearrangement of the emissions of
the map stage. -/
theorem shuffle_partitions_received (received : List KeyValue) :
    (mapKeys (shuffle received)).Nodup
    ∧ (∀ k, (mapGet (shuffle received) k).getD [] = valuesOf k received)
    ∧ (∀ k, k ∈ mapKeys (shuffle received) ↔ ∃ kv ∈ received, kv.Key = k)
    ∧ (∀ k vs, (k, vs) ∈ shuffle received ↔ vs = valuesOf k received ∧ vs ≠ [])
    ∧ ((shuffle received).map (fun e => e.2.length)).sum = received.length
    ∧ (∀ kv, shuffle (received ++ [kv])
        = mapSet (shuffle received) kv.Key
            ((mapGet (shuffle received) kv.Key).getD [] ++ [kv.Value]))
    ∧ (∀ (unicodeToLower : Char → Char) (input : List String) (acts : List Action)
        (s : RunState), exec unicodeToLower (init input) acts = some s →
        ∃ got : List KeyValue, s.groups = shuffle got
          ∧ (got ++ inFlight unicodeToLower s).Perm (allEmissions unicodeToLower input)) := by
  refine ⟨nodup_mapKeys_shuffle received, ?_, mem_mapKeys_shuffle received, ?_,
    sum_length_shuffle received, ?_, ?_⟩
  · intro k
    rw [mapGet_shuffle]
    by_cases h : valuesOf k received = [] <;> simp [h]
  · intro k vs
    rw [← mapGet_eq_some_iff _ _ _ (nodup_mapKeys_shuffle received), mapGet_shuffle]
    by_cases h : valuesOf k received = []
    · simp only [h, if_true]
      constructor
      · intro hh
        cases hh
      · rintro ⟨h1, h2⟩
        exact absurd h1 h2
    · simp only [h, if_false, Option.some.injEq]
      constructor
      · intro hh
        subst hh
        exact ⟨rfl, h⟩
      · rintro ⟨h1, _⟩
        exact h1.symm
  · intro kv
    rw [shuffle_append_singleton, shuffleStep]
  · intro unicodeToLower input acts s h
    exact (Inv_exec unicodeToLower input acts s h).account

/-- Witness for C7: after `Run(["a b", "A"])` has received `a` from the second
mapper and `a` from the first, `groups` is `a -> [1, 1]` and `b` is in flight. -/
theorem shuffle_partitions_received_witness :
    ∃ s got, exec id (init ["a b", "A"])
        [.spawnMapper, .spawnMapper, .startCloser, .send 1, .send 0] = some s
      ∧ s.groups = [("a", [1, 1])] ∧ s.groups = shuffle got
      ∧ (got ++ inFlight id s).Perm (allEmissions id ["a b", "A"]) := by
  obtain ⟨got, h1, h2⟩ := (shuffle_partitions_received []).2.2.2.2.2.2 id ["a b", "A"]
    [.spawnMapper, .spawnMapper, .startCloser, .send 1, .send 0] _ rfl
  exact ⟨_, got, rfl, by decide, h1, h2⟩

theorem Run_exists (unicodeToLower : Char → Char) (input : List String) :
    ∃ acts result, Run unicodeToLower input acts = some result := by
  obtain ⟨rest, result, h⟩ := (Run_completes unicodeToLower input [] (init input) rfl).1
  exact ⟨[] ++ rest, result, h⟩

theorem wrapInt_countKey (k : String) (kvs : List KeyValue)
    (hfit : countKey k kvs < 2 ^ 63) :
    wrapInt (countKey k kvs) = (countKey k kvs : Int) := by
  apply wrapInt_of_fits
  · have : (0 : Int) ≤ (countKey k kvs : Int) := Int.ofNat_nonneg _
    omega
  · exact_mod_cast hfit

theorem countKey_fits_of_length (kvs : List KeyValue) (h : kvs.length < 2 ^ 63) (k : String) :
    countKey k kvs < 2 ^ 63 :=
  Nat.lt_of_le_of_lt (countKey_le_length k kvs) h

theorem Run_perm_of_fits (unicodeToLower : Char → Char) (input : List String)
    (acts : List Action) (result : List (String × Int))
    (h : Run unicodeToLower input acts = some result)
    (hfit : ∀ k, countKey k (allEmissions unicodeToLower input) < 2 ^ 63) :
    result.Perm ((distinctKeys (allEmissions unicodeToLower input)).map
      (fun k => (k, (countKey k (allEmissions unicodeToLower input) : Int)))) := by
  have h1 := Run_perm unicodeToLower input acts result h
  have h2 : (fun k => (k, wrapInt (countKey k (allEmissions unicodeToLower input))))
      = (fun k => (k, (countKey k (allEmissions unicodeToLower input) : Int))) := by
    funext k
    rw [wrapInt_countKey k _ (hfit k)]
  rw [h2] at h1
  exact h1

theorem sum_map_natCast (l : List String) (f : String → Nat) :
    (l.map (fun k => (f k : Int))).sum = ((l.map f).sum : Int) := by
  induction l with
  | nil => simp
  | cons a as ih =>
    simp only [List.map_cons, List.sum_cons, ih]
    push_cast
    rfl

/-- C1. For every list of input records `Run` returns under some schedule, every
schedule under way can be completed and none is longer than `stepBound`, and
under every schedule the returned map has exactly one entry per distinct
normalized token of the records, whose value is the number of emissions of
`wordCountMapper` with that key: as a Go `int` (wrapped) without any condition, and
as the exact number when the emissions per key number less than `2 ^ 63`, as does
the length of every Go slice, here `groups[k]`.
`["the quick fox", "the slow fox"]` gives `{the: 2, quick: 1, fox: 2, slow: 1}`. -/
theorem Run_counts_tokens (unicodeToLower : Char → Char) (input : List String) :
    (∃ acts result, Run unicodeToLower input acts = some result)
    ∧ (∀ acts s, exec unicodeToLower (init input) acts = some s →
        (∃ rest result, Run unicodeToLower input (acts ++ rest) = some result)
        ∧ acts.length ≤ stepBound unicodeToLower (init input))
    ∧ (∀ acts result, Run unicodeToLower input acts = some result →
        result.Perm ((distinctKeys (allEmissions unicodeToLower input)).map
          (fun k => (k, wrapInt (countKey k (allEmissions unicodeToLower input))))))
    ∧ (∀ acts result, Run unicodeToLower input acts = some result →
        (∀ k, countKey k (allEmissions unicodeToLower input) < 2 ^ 63) →
        result.Perm ((distinctKeys (allEmissions unicodeToLower input)).map
          (fun k => (k, (countKey k (allEmissions unicodeToLower input) : Int))))
        ∧ (mapKeys result).Nodup
        ∧ (∀ k, k ∈ mapKeys result ↔ ∃ kv ∈ allEmissions unicodeToLower input, kv.Key = k)
        ∧ (∀ k ∈ mapKeys result,
            mapGet result k = some (countKey k (allEmissions unicodeToLower input) : Int)))
    ∧ (∀ acts result,
        Run unicodeToLower ["the quick fox", "the slow fox"] acts = some result →
        result.Perm [("the", 2), ("quick", 1), ("fox", 2), ("slow", 1)]) := by
  refine ⟨Run_exists unicodeToLower input, Run_completes unicodeToLower input,
    Run_perm unicodeToLower input, ?_, ?_⟩
  · intro acts result h hfit
    obtain ⟨hnd, hget⟩ := Run_spec unicodeToLower input acts result h
    have hmem : ∀ k, k ∈ mapKeys result
        ↔ ∃ kv ∈ allEmissions unicodeToLower input, kv.Key = k := by
      intro k
      have h1 := mapGet_eq_none_iff result k
      rw [hget k] at h1
      have h2 := countKey_eq_zero_iff k (allEmissions unicodeToLower input)
      by_cases h0 : countKey k (allEmissions unicodeToLower input) = 0
      · have h3 := h2.1 h0
        simp only [h0, if_true, true_iff] at h1
        constructor
        · intro hk
          exact absurd hk h1
        · rintro ⟨kv, hkv, hk⟩
          exact absurd hk (h3 kv hkv)
      · rw [if_neg h0] at h1
        have h3 : k ∈ mapKeys result := by
          by_contra hc
          have := h1.2 hc
          cases this
        have h4 : ¬ ∀ kv ∈ allEmissions unicodeToLower input, kv.Key ≠ k :=
          fun hh => h0 (h2.2 hh)
        push_neg at h4
        exact ⟨fun _ => h4, fun _ => h3⟩
    refine ⟨Run_perm_of_fits unicodeToLower input acts result h hfit, hnd, hmem, ?_⟩
    intro k hk
    rw [hget k]
    obtain ⟨kv, hkv, hkey⟩ := (hmem k).1 hk
    have h0 : countKey k (allEmissions unicodeToLower input) ≠ 0 := by
      intro h0
      exact (countKey_eq_zero_iff k _).1 h0 kv hkv hkey
    rw [if_neg h0, wrapInt_countKey k _ (hfit k)]
  · intro acts result h
    have hE : allEmissions unicodeToLower ["the quick fox", "the slow fox"]
        = [⟨"the", 1⟩, ⟨"quick", 1⟩, ⟨"fox", 1⟩, ⟨"the", 1⟩, ⟨"slow", 1⟩, ⟨"fox", 1⟩] := by
      rw [allEmissions_eq]
      decide
    have h1 := Run_perm_of_fits unicodeToLower _ acts result h
      (countKey_fits_of_length _ (by rw [hE]; decide))
    rw [hE] at h1
    refine h1.trans ?_
    decide

/-- Witness for C1: the schedule `foxSchedule` of
`Run(["the quick fox", "the slow fox"])`, in which the two mappers alternate on the
channel. -/
theorem Run_counts_tokens_witness :
    Run id ["the quick fox", "the slow fox"] foxSchedule
      = some [("the", 2), ("slow", 1), ("fox", 2), ("quick", 1)]
    ∧ ([("the", 2), ("slow", 1), ("fox", 2), ("quick", 1)] : List (String × Int)).Perm
        [("the", 2), ("quick", 1), ("fox", 2), ("slow", 1)]
    ∧ mapGet ([("the", 2), ("slow", 1), ("fox", 2), ("quick", 1)] : List (String × Int)) "fox"
        = some 2 :=
  ⟨by decide,
    (Run_counts_tokens id ["the quick fox", "the slow fox"]).2.2.2.2 foxSchedule
      [("the", 2), ("slow", 1), ("fox", 2), ("quick", 1)] (by decide),
    ((Run_counts_tokens id ["the quick fox", "the slow fox"]).2.2.2.1 foxSchedule
      [("the", 2), ("slow", 1), ("fox", 2), ("quick", 1)]
      (by decide) (countKey_fits_of_length _ (by decide))).2.2.2 "fox" (by decide)⟩

/-- C3. For every list of input records and every schedule, the values of the map
`Run` returns add up to the total number of emissions of `wordCountMapper` over
all records (the sum of the per-record numbers of emissions), whatever the number
of records; the number of emissions per key is taken below `2 ^ 63`, as is the
length of every Go slice, and without that bound the values add up to the wrapped
per-key counts.  `Run` does return for every input. -/
theorem Run_sum_values (unicodeToLower : Char → Char) (input : List String) :
    (∃ acts result, Run unicodeToLower input acts = some result)
    ∧ (allEmissions unicodeToLower input).length
        = (input.map (fun text => (wordCountMapper unicodeToLower text).length)).sum
    ∧ (∀ acts result, Run unicodeToLower input acts = some result →
        (result.map Prod.snd).sum
            = ((distinctKeys (allEmissions unicodeToLower input)).map
                (fun k => wrapInt (countKey k (allEmissions unicodeToLower input)))).sum
        ∧ ((∀ k, countKey k (allEmissions unicodeToLower input) < 2 ^ 63) →
            (result.map Prod.snd).sum = ((allEmissions unicodeToLower input).length : Int))) := by
  refine ⟨Run_exists unicodeToLower input, ?_, ?_⟩
  · simp only [allEmissions, List.length_flatMap]
    rfl
  · intro acts result h
    constructor
    · have h1 := ((Run_perm unicodeToLower input acts result h).map Prod.snd).sum_eq
      rw [h1, List.map_map]
      rfl
    · intro hfit
      have h1 := ((Run_perm_of_fits unicodeToLower input acts result h hfit).map Prod.snd).sum_eq
      rw [h1, List.map_map]
      have h2 := sum_map_natCast (distinctKeys (allEmissions unicodeToLower input))
        (fun k => countKey k (allEmissions unicodeToLower input))
      rw [sum_countKey_distinctKeys] at h2
      exact h2

/-- Witness for C3: the schedule `abSchedule` of `Run(["a b", "A"])`; the three
emissions give values that add up to 3. -/
theorem Run_sum_values_witness :
    Run id ["a b", "A"] abSchedule = some [("b", 1), ("a", 2)]
    ∧ (([("b", 1), ("a", 2)] : List (String × Int)).map Prod.snd).sum
        = ((allEmissions id ["a b", "A"]).length : Int)
    ∧ (allEmissions id ["a b", "A"]).length = 3 :=
  ⟨by decide,
    ((Run_sum_values id ["a b", "A"]).2.2 abSchedule [("b", 1), ("a", 2)]
      (by decide)).2 (countKey_fits_of_length _ (by decide)),
    by decide⟩

theorem send_disabled_of_closed (unicodeToLower : Char → Char) (s : RunState)
    (hc : s.closed = true) (i : Nat) : step unicodeToLower s (.send i) = none := by
  cases h : step unicodeToLower s (.send i) with
  | none => rfl
  | some s' =>
    have hstep := Step_of_step _ _ _ _ h
    cases hstep with
    | send _ kv rest hp hopen hi => rw [hc] at hopen; cases hopen

theorem send_disabled_of_spawnMappers (unicodeToLower : Char → Char) (s : RunState)
    (hp : s.phase = .spawnMappers) (i : Nat) : step unicodeToLower s (.send i) = none := by
  cases h : step unicodeToLower s (.send i) with
  | none => rfl
  | some s' =>
    have hstep := Step_of_step _ _ _ _ h
    cases hstep with
    | send _ kv rest hp' hopen hi => rw [hp] at hp'; cases hp'

theorem mem_groups_of_reducer (unicodeToLower : Char → Char) (input : List String)
    (s : RunState) (h : Inv unicodeToLower input s) (r : ReducerTask) (hr : r ∈ s.reducers) :
    mapGet s.groups r.k = some r.v := by
  have hne : s.reducers ≠ [] := List.ne_nil_of_mem hr
  have hperm := h.reduce.tasks_perm (reduce_phase_of_reducers s h.reduce hne)
  rw [mapGet_eq_some_iff _ _ _ (nodup_groups_of_account unicodeToLower input s h.account)]
  apply hperm.mem_iff.1
  apply List.mem_append_left
  exact List.mem_map.2 ⟨r, hr, rfl⟩

/-- C5. When the input has no record, or no record contains an ASCII letter,
`wordCountMapper` yields no emission for any record, `Run` returns under some
schedule, every schedule of `Run` that is under way can be completed and then
returns the empty map, and the map returned under any schedule is empty. -/
theorem Run_empty_of_no_letters (unicodeToLower : Char → Char) (input : List String)
    (hno : ∀ text ∈ input, ∀ c ∈ text.data, isAsciiLetter c = false) :
    (∀ text ∈ input, wordCountMapper unicodeToLower text = [])
    ∧ (∃ acts, Run unicodeToLower input acts = some [])
    ∧ (∀ acts result, Run unicodeToLower input acts = some result → result = [])
    ∧ (∀ acts s, exec unicodeToLower (init input) acts = some s →
        ∃ rest, Run unicodeToLower input (acts ++ rest) = some []) := by
  have hmap : ∀ text ∈ input, wordCountMapper unicodeToLower text = [] := by
    intro text ht
    rw [wordCountMapper_eq, letterRuns_of_no_letter _ (hno text ht)]
    rfl
  have hE : allEmissions unicodeToLower input = [] := by
    simp only [allEmissions, List.flatMap_eq_nil_iff]
    exact hmap
  have hres : ∀ acts result, Run unicodeToLower input acts = some result → result = [] := by
    intro acts result h
    have h1 := Run_perm unicodeToLower input acts result h
    rw [hE] at h1
    exact List.Perm.eq_nil (by simpa [distinctKeys] using h1)
  refine ⟨hmap, ?_, hres, ?_⟩
  · obtain ⟨acts, result, h⟩ := Run_exists unicodeToLower input
    have := hres acts result h
    subst this
    exact ⟨acts, h⟩
  · intro acts s h
    obtain ⟨rest, result, h1⟩ := (Run_completes unicodeToLower input acts s h).1
    have := hres _ result h1
    subst this
    exact ⟨rest, h1⟩

/-- Witness for C5: four records without an ASCII letter (empty, digits and
punctuation, blanks, non-ASCII letters) and the schedule `emptySchedule`. -/
theorem Run_empty_of_no_letters_witness :
    (∀ text ∈ ["", "12 + 3 = 15?!", " \t ", "éß日本"], ∀ c ∈ text.data,
        isAsciiLetter c = false)
    ∧ (∀ text ∈ ["", "12 + 3 = 15?!", " \t ", "éß日本"], wordCountMapper id text = [])
    ∧ Run id ["", "12 + 3 = 15?!", " \t ", "éß日本"] emptySchedule = some []
    ∧ (∀ result, Run id [] [.startCloser, .close, .endShuffle, .ret] = some result →
        result = []) :=
  ⟨by decide,
    (Run_empty_of_no_letters id ["", "12 + 3 = 15?!", " \t ", "éß日本"] (by decide)).1,
    by decide,
    fun result h => (Run_empty_of_no_letters id [] (by decide)).2.2.1
      [.startCloser, .close, .endShuffle, .ret] result h⟩

/-- C6. `Run` is deterministic up to the content of the map: for every input it
returns under some schedule, and the maps returned under any two schedules (any
interleaving of the mappers on the channel, any order of spawning and merging the
reducers) have the same entries, i.e. are permutations of each other and agree on
every lookup.  As functions, shuffle and reduce give the same lookups for any two
orders in which the emissions of the map stage are received. -/
theorem Run_deterministic (unicodeToLower : Char → Char) (input : List String) :
    (∃ acts result, Run unicodeToLower input acts = some result)
    ∧ (∀ acts1 acts2 result1 result2,
        Run unicodeToLower input acts1 = some result1 →
        Run unicodeToLower input acts2 = some result2 →
        result1.Perm result2 ∧ (∀ k, mapGet result1 k = mapGet result2 k)
          ∧ (mapKeys result1).Nodup ∧ (mapKeys result2).Nodup)
    ∧ (∀ received1 received2 : List KeyValue,
        received1.Perm (allEmissions unicodeToLower input) →
        received2.Perm (allEmissions unicodeToLower input) →
        ∀ k, mapGet (reduceAll (shuffle received1)) k
          = mapGet (reduceAll (shuffle received2)) k) := by
  refine ⟨Run_exists unicodeToLower input, ?_, ?_⟩
  rotate_left
  · intro received1 received2 hp1 hp2 k
    rw [mapGet_reduceAll_shuffle _ received1 k hp1
        (value_of_mem_allEmissions unicodeToLower input),
      mapGet_reduceAll_shuffle _ received2 k hp2
        (value_of_mem_allEmissions unicodeToLower input)]
  intro acts1 acts2 result1 result2 h1 h2
  obtain ⟨hnd1, hget1⟩ := Run_spec unicodeToLower input acts1 result1 h1
  obtain ⟨hnd2, hget2⟩ := Run_spec unicodeToLower input acts2 result2 h2
  refine ⟨?_, ?_, hnd1, hnd2⟩
  · exact (Run_perm unicodeToLower input acts1 result1 h1).trans
      (Run_perm unicodeToLower input acts2 result2 h2).symm
  · intro k
    rw [hget1 k, hget2 k]

/-- Witness for C6: two schedules of `Run(["a b", "A"])` with different
interleavings on the channel and different orders of the reducers; the returned
maps list their entries in different orders and have the same content. -/
theorem Run_deterministic_witness :
    Run id ["a b", "A"] abSchedule = some [("b", 1), ("a", 2)]
    ∧ Run id ["a b", "A"] abScheduleInOrder = some [("a", 2), ("b", 1)]
    ∧ ([("b", 1), ("a", 2)] : List (String × Int)).Perm [("a", 2), ("b", 1)]
    ∧ mapGet ([("b", 1), ("a", 2)] : List (String × Int)) "a"
        = mapGet ([("a", 2), ("b", 1)] : List (String × Int)) "a" :=
  ⟨by decide, by decide,
    ((Run_deterministic id ["a b", "A"]).2.1 abSchedule abScheduleInOrder
      [("b", 1), ("a", 2)] [("a", 2), ("b", 1)] (by decide) (by decide)).1,
    ((Run_deterministic id ["a b", "A"]).2.1 abSchedule abScheduleInOrder
      [("b", 1), ("a", 2)] [("a", 2), ("b", 1)] (by decide) (by decide)).2.1 "a"⟩

/-- C8. In every execution of `Run`, once a reduce task exists or can be spawned,
every record has got its mapper task and every mapper task has finished, the
channel is closed and drained (no emission can be received any more), `groups`
holds every emission of the map stage, every reduce task was handed a complete
group, and `groups` is the same in every later state. -/
theorem reduce_after_map_closed (unicodeToLower : Char → Char) (input : List String)
    (acts : List Action) (s : RunState)
    (hexec : exec unicodeToLower (init input) acts = some s)
    (hred : s.reducers ≠ [] ∨ ∃ j, (step unicodeToLower s (.spawnReducer j)).isSome = true) :
    s.closed = true ∧ s.pendingInput = [] ∧ s.mappers.length = input.length
    ∧ (∀ m ∈ s.mappers, m = MapperTask.finished) ∧ s.mapWg = 0
    ∧ (∀ i, step unicodeToLower s (.send i) = none)
    ∧ (∃ received : List KeyValue,
        received.Perm (allEmissions unicodeToLower input) ∧ s.groups = shuffle received)
    ∧ (∀ k, (mapGet s.groups k).getD [] = valuesOf k (allEmissions unicodeToLower input))
    ∧ (∀ r ∈ s.reducers, mapGet s.groups r.k = some r.v)
    ∧ (∀ rest s', exec unicodeToLower s rest = some s' → s'.groups = s.groups) := by
  have hinv := Inv_exec unicodeToLower input acts s hexec
  have hphase : s.phase = .reduce ∨ s.phase = .returned := by
    rcases hred with hne | ⟨j, hj⟩
    · exact reduce_phase_of_reducers s hinv.reduce hne
    · cases hstep : step unicodeToLower s (.spawnReducer j) with
      | none => rw [hstep] at hj; cases hj
      | some s' =>
        have h1 := Step_of_step _ _ _ _ hstep
        cases h1 with
        | spawnReducer _ k v hp hpg => exact Or.inl hp
  have hc := hinv.sync.reduce_closed hphase
  obtain ⟨h1, h2, h3, h4, received, hperm, hg⟩ := closed_facts unicodeToLower input s hinv hc
  refine ⟨hc, h1, h2, h3, h4, send_disabled_of_closed unicodeToLower s hc,
    ⟨received, hperm, hg⟩, ?_, mem_groups_of_reducer unicodeToLower input s hinv,
    groups_frozen unicodeToLower s hc⟩
  intro k
  have hone := value_of_mem_allEmissions unicodeToLower input
  have hone' : ∀ kv ∈ received, kv.Value = 1 := fun kv hkv => hone kv (hperm.mem_iff.1 hkv)
  rw [hg, mapGet_shuffle, valuesOf_eq_replicate k received hone',
    valuesOf_eq_replicate k _ hone, countKey_perm k received _ hperm]
  by_cases h0 : List.replicate (countKey k (allEmissions unicodeToLower input)) (1 : Int) = []
  · simp [h0]
  · simp [h0]

/-- Witness for C8: in `Run(["a b", "A"])`, right after the first reduce task is
spawned. -/
theorem reduce_after_map_closed_witness :
    ∃ s, exec id (init ["a b", "A"]) (abSchedule.take 11) = some s
      ∧ s.reducers = [⟨"b", [1], .spawned⟩]
      ∧ s.closed = true ∧ s.mapWg = 0 ∧ s.groups = [("a", [1, 1]), ("b", [1])]
      ∧ (∀ rest s', exec id s rest = some s' → s'.groups = s.groups) := by
  have h := reduce_after_map_closed id ["a b", "A"] (abSchedule.take 11) _ rfl
    (Or.inl (by decide))
  exact ⟨_, rfl, by decide, h.1, h.2.2.2.2.1, by decide, h.2.2.2.2.2.2.2.2.2⟩

/-- C9, counterexample.  In `Run(["a"])`, after the mapper and the closer are
spawned, the shuffle loop receives the emission `a` while the wait group still
counts one outstanding mapper task, which is still outstanding afterwards: the
shuffle phase does receive emissions before the map phase is complete. -/
theorem shuffle_during_map_phase :
    (∃ s s', exec id (init ["a"]) [.spawnMapper, .startCloser] = some s
      ∧ step id s (.send 0) = some s'
      ∧ s.mapWg = 1 ∧ s.mappers = [.sending [⟨"a", 1⟩]] ∧ s.groups = []
      ∧ s'.mapWg = 1 ∧ s'.mappers = [.sending []] ∧ s'.groups = [("a", [1])]
      ∧ s'.closed = false)
    ∧ ¬ (∀ acts s i s', exec id (init ["a"]) acts = some s →
          step id s (.send i) = some s' → s.mapWg = 0) := by
  constructor
  · exact ⟨_, _, rfl, rfl, by decide, by decide, by decide, by decide, by decide, by decide,
      by decide⟩
  · intro h
    have h1 := h [.spawnMapper, .startCloser] _ 0 _ rfl rfl
    revert h1
    decide

/-- C9, amended.  In every execution of `Run`: while the caller spawns the mapper
tasks nothing is received, shuffled or reduced; whenever the shuffle loop receives
an emission, every record has got its mapper task, the channel is open and the
sending mapper task is outstanding, before and after the receipt (the map and
shuffle phases overlap); and once the caller is in the reduce phase or has
returned, the channel is closed, every mapper task has finished and nothing can be
received any more, while before that no reduce task exists. -/
theorem phases_of_Run (unicodeToLower : Char → Char) (input : List String)
    (acts : List Action) (s : RunState)
    (hexec : exec unicodeToLower (init input) acts = some s) :
    (s.phase = .spawnMappers →
        s.groups = [] ∧ s.closed = false ∧ ∀ i, step unicodeToLower s (.send i) = none)
    ∧ (∀ i s', step unicodeToLower s (.send i) = some s' →
        s.phase = .shuffle ∧ s.pendingInput = [] ∧ s.mappers.length = input.length
        ∧ s.closed = false ∧ 0 < s.mapWg ∧ 0 < s'.mapWg
        ∧ ∃ kv rest, s.mappers[i]? = some (.sending (kv :: rest))
            ∧ s'.mappers = s.mappers.set i (.sending rest)
            ∧ s'.groups = shuffleStep s.groups kv)
    ∧ (s.phase = .reduce ∨ s.phase = .returned →
        s.closed = true ∧ s.mapWg = 0 ∧ (∀ m ∈ s.mappers, m = MapperTask.finished)
        ∧ ∀ i, step unicodeToLower s (.send i) = none)
    ∧ (s.phase = .spawnMappers ∨ s.phase = .shuffle → s.reducers = [] ∧ s.result = []) := by
  have hinv := Inv_exec unicodeToLower input acts s hexec
  refine ⟨?_, ?_, ?_, ?_⟩
  · intro hp
    refine ⟨groups_nil_of_spawnMappers unicodeToLower input acts s hexec hp, ?_,
      send_disabled_of_spawnMappers unicodeToLower s hp⟩
    cases hc : s.closed with
    | false => rfl
    | true =>
      have h1 := (hinv.sync.closed_imp hc).1
      exact absurd hp (hinv.sync.closer_iff.1 h1)
  · intro i s' hstep
    have h1 := Step_of_step _ _ _ _ hstep
    cases h1 with
    | send _ kv rest hp hopen hi =>
      have h2 := hinv.sync.input_done (by rw [hp]; simp)
      have h3 := hinv.sync.spawned
      rw [h2] at h3
      have h4 : 0 < s.mapWg := by
        rw [hinv.sync.mapWg_eq]
        apply List.length_pos.2
        intro hnil
        rw [List.filter_eq_nil_iff] at hnil
        have := hnil _ (List.getElem?_mem hi)
        simp [MapperTask.outstanding] at this
      exact ⟨hp, h2, by simpa using h3, hopen, h4, h4, kv, rest, hi, rfl, rfl⟩
  · intro hp
    have hc := hinv.sync.reduce_closed hp
    obtain ⟨_, _, h3, h4, _⟩ := closed_facts unicodeToLower input s hinv hc
    exact ⟨hc, h4, h3, send_disabled_of_closed unicodeToLower s hc⟩
  · intro hp
    have := hinv.reduce.before_reduce hp
    exact ⟨this.1, this.2.2.1⟩

/-- Witness for C9, amended: in `Run(["a b", "A"])` the second mapper hands over
its emission while both mapper tasks are outstanding. -/
theorem phases_of_Run_witness :
    ∃ s s', exec id (init ["a b", "A"]) (abSchedule.take 3) = some s
      ∧ step id s (.send 1) = some s'
      ∧ s.phase = .shuffle ∧ s.mapWg = 2 ∧ 0 < s'.mapWg
      ∧ s'.groups = [("a", [1])] := by
  have h := (phases_of_Run id ["a b", "A"] (abSchedule.take 3) _ rfl).2.1 1 _ rfl
  exact ⟨_, _, rfl, rfl, h.1, by decide, h.2.2.2.2.2.1, by decide⟩

/-- C10. In every execution of `Run`: the reduce tasks have pairwise distinct keys
and each was spawned for an entry of `groups`, the spawned tasks and the entries
not yet visited being a rearrangement of `groups`; the entries of `result` are
exactly the outputs of the tasks that have written, one per task; a write of a
task adds one entry under the key the task was spawned for, a key that `result`
does not hold yet; and when `Run` returns there is exactly one finished task per
entry of `groups`, and `result` has as many entries as `groups`, under the same
keys. -/
theorem reduce_writes_distinct_keys (unicodeToLower : Char → Char) (input : List String)
    (acts : List Action) (s : RunState)
    (hexec : exec unicodeToLower (init input) acts = some s) :
    (s.reducers.map ReducerTask.k).Nodup
    ∧ (∀ r ∈ s.reducers, mapGet s.groups r.k = some r.v)
    ∧ (s.phase = .reduce ∨ s.phase = .returned →
        (s.reducers.map ReducerTask.args ++ s.pendingGroups).Perm s.groups)
    ∧ s.result.Perm ((s.reducers.filter ReducerTask.wrote).map ReducerTask.output)
    ∧ (mapKeys s.result).Nodup
    ∧ (∀ i s', step unicodeToLower s (.reduceWrite i) = some s' →
        ∃ r, s.reducers[i]? = some r ∧ r.pc = .spawned
          ∧ (wordCountReducer r.k r.v).Key = r.k ∧ r.k ∉ mapKeys s.result
          ∧ s'.result = s.result ++ [(r.k, (wordCountReducer r.k r.v).Value)]
          ∧ s'.reducers = s.reducers.set i ⟨r.k, r.v, .written⟩)
    ∧ (∀ i s', step unicodeToLower s (.reduceWrite i) = some s' →
        step unicodeToLower s' (.reduceWrite i) = none)
    ∧ (s.phase = .returned →
        (s.reducers.map ReducerTask.args).Perm s.groups
        ∧ (∀ r ∈ s.reducers, r.pc = .finished)
        ∧ s.reducers.length = s.groups.length
        ∧ s.result.length = s.groups.length
        ∧ (mapKeys s.result).Perm (mapKeys s.groups)) := by
  have hinv := Inv_exec unicodeToLower input acts s hexec
  have hkeys := nodup_reducer_keys unicodeToLower input s hinv
  have hwrite : ∀ i s', step unicodeToLower s (.reduceWrite i) = some s' →
      ∃ r, s.reducers[i]? = some r ∧ r.pc = .spawned
        ∧ (wordCountReducer r.k r.v).Key = r.k ∧ r.k ∉ mapKeys s.result
        ∧ s'.result = s.result ++ [(r.k, (wordCountReducer r.k r.v).Value)]
        ∧ s'.reducers = s.reducers.set i ⟨r.k, r.v, .written⟩ := by
    intro i s' hstep
    have h1 := Step_of_step _ _ _ _ hstep
    cases h1 with
    | reduceWrite _ k v hi =>
      have hfresh := fresh_key_of_spawned unicodeToLower input s hinv i _ hi rfl
      refine ⟨⟨k, v, .spawned⟩, hi, rfl, rfl, hfresh, ?_, rfl⟩
      exact mapSet_of_not_mem _ _ _ hfresh
  refine ⟨hkeys, mem_groups_of_reducer unicodeToLower input s hinv,
    hinv.reduce.tasks_perm, hinv.reduce.result_perm, ?_, hwrite, ?_, ?_⟩
  · have h1 := (hinv.reduce.result_perm.map Prod.fst).nodup_iff.2
    apply h1
    have h2 : ((s.reducers.filter ReducerTask.wrote).map ReducerTask.output).map Prod.fst
        = (s.reducers.filter ReducerTask.wrote).map ReducerTask.k := by
      rw [List.map_map]
      rfl
    rw [h2]
    exact hkeys.sublist ((List.filter_sublist _).map _)
  · intro i s' hstep
    obtain ⟨r, hi, _, _, _, _, hred⟩ := hwrite i s' hstep
    have hlt : i < s.reducers.length := by
      by_contra hge
      rw [List.getElem?_eq_none (by omega)] at hi
      cases hi
    cases h2 : step unicodeToLower s' (.reduceWrite i) with
    | none => rfl
    | some s'' =>
      have h3 := Step_of_step _ _ _ _ h2
      cases h3 with
      | reduceWrite _ k v hi' =>
        rw [hred, List.getElem?_set_self hlt] at hi'
        cases hi'
  · intro hp
    obtain ⟨h1, h2, h3⟩ := returned_facts unicodeToLower input s hinv hp
    refine ⟨h1, h2, ?_, ?_, ?_⟩
    · simpa using h1.length_eq
    · simpa [reduceAll] using h3.length_eq
    · have := h3.map Prod.fst
      rw [show (reduceAll s.groups).map Prod.fst = mapKeys s.groups from
        mapKeys_reduceAll s.groups] at this
      exact this

/-- Witness for C10: in `Run(["a b", "A"])` with both reduce tasks spawned, the
task of `b` writes the first entry of `result`. -/
theorem reduce_writes_distinct_keys_witness :
    ∃ s s', exec id (init ["a b", "A"]) (abSchedule.take 12) = some s
      ∧ step id s (.reduceWrite 0) = some s'
      ∧ s.reducers = [⟨"b", [1], .spawned⟩, ⟨"a", [1, 1], .spawned⟩]
      ∧ s.result = [] ∧ s'.result = [("b", 1)]
      ∧ (s.reducers.map ReducerTask.k).Nodup
      ∧ step id s' (.reduceWrite 0) = none := by
  have h := reduce_writes_distinct_keys id ["a b", "A"] (abSchedule.take 12) _ rfl
  exact ⟨_, _, rfl, rfl, by decide, by decide, by decide, h.1, h.2.2.2.2.2.2.1 0 _ rfl⟩

end Mapred
